import Mathlib

/-!
Verification of the contree layer-merge engine.

Paths are modelled as lists of characters (`Key`), mirroring the Rust
`&str` values.  The merged filesystem tree (`Node` in `tree.rs`) keeps its
children in a `HashMap<String, Node>`; here the children are modelled as an
association list kept strictly sorted by key, which is a canonical
representation of the same finite map (so Lean equality of trees coincides
with map equality of the Rust structures).  All operations are translated
from the source files `whiteout.rs`, `tree.rs`, `archive.rs` and
`manifest.rs`.
-/

namespace Contree

abbrev Key := List Char

/-- Boolean test that the first list is a prefix of the second. -/
def pfx {α : Type} [DecidableEq α] : List α → List α → Bool
  | [], _ => true
  | _ :: _, [] => false
  | a :: as, b :: bs => if a = b then pfx as bs else false

/-- Model of Rust `trim_end_matches('/')`: remove every trailing slash. -/
def trimEndSlashes (p : Key) : Key := (p.reverse.dropWhile (fun c => c == '/')).reverse

/-- Model of Rust `path.rsplit('/').next().unwrap_or(path)` (no trailing trim). -/
def basenameRaw (p : Key) : Key := (p.reverse.takeWhile (fun c => !(c == '/'))).reverse

/-- Model of `utils::split_path` (also duplicated in `whiteout.rs`):
trim trailing slashes, then split at the last slash into (dir, basename). -/
def split_path (p : Key) : Key × Key :=
  let q := trimEndSlashes p
  let r := q.reverse
  match r.dropWhile (fun c => !(c == '/')) with
  | [] => ([], q)
  | _ :: dr => (dr.reverse, (r.takeWhile (fun c => !(c == '/'))).reverse)

/-- Model of Rust `str::split('/')` on the character list. -/
def splitSlash : Key → List Key
  | [] => [[]]
  | c :: rest =>
    if c = '/' then [] :: splitSlash rest
    else
      match splitSlash rest with
      | [] => [[c]]
      | h :: t => (c :: h) :: t

/-- Model of `path.split('/').filter(|p| !p.is_empty() && *p != ".")`,
the path-component list every tree operation traverses. -/
def filterParts (p : Key) : List Key :=
  (splitSlash p).filter (fun s => !(s == []) && !(s == ['.']))

/-- Model of `whiteout::is_whiteout`: the basename starts with ".wh.". -/
def is_whiteout (p : Key) : Bool := pfx (".wh.".data) (basenameRaw p)

/-- Model of `whiteout::is_opaque`: the basename equals ".wh..wh..opq". -/
def is_opaque (p : Key) : Bool := basenameRaw p == ".wh..wh..opq".data

/-- Model of `whiteout::whiteout_target`: strip the ".wh." basename marker. -/
def whiteout_target (p : Key) : Key :=
  let d := (split_path p).1
  let b := (split_path p).2
  let tb := if pfx (".wh.".data) b then b.drop 4 else b
  if d = [] then tb else d ++ '/' :: tb

/-- Model of `whiteout::opaque_dir`: the directory component of the marker. -/
def opaque_dir (p : Key) : Key := (split_path p).1

/-- Metadata of one tree node, mirroring `NodeMetadata` in `tree.rs`. -/
structure NodeMetadata where
  is_file : Bool
  is_symlink : Bool
  symlink_target : Option Key
  hardlink_target : Option Key
  mode : Nat
  uid : Nat
  gid : Nat
  uname : Option Key
  gname : Option Key
  layer_hash : Option Key
deriving DecidableEq

mutual
/-- A node of the merged filesystem tree (`Node` in `tree.rs`). -/
inductive Node where
  | mk : NodeMetadata → Children → Node
deriving DecidableEq
/-- Children keyed by basename, kept strictly sorted by key: the canonical
representation of the Rust `HashMap<String, Node>`. -/
inductive Children where
  | nil : Children
  | cons : Key → Node → Children → Children
deriving DecidableEq
end

def Node.metadata : Node → NodeMetadata
  | .mk md _ => md

def Node.children : Node → Children
  | .mk _ cs => cs

/-- Lexicographic order on keys, used only to keep the children map canonical. -/
def keyLt : Key → Key → Bool
  | [], [] => false
  | [], _ :: _ => true
  | _ :: _, [] => false
  | a :: as, b :: bs => if a < b then true else if b < a then false else keyLt as bs

/-- Map lookup on the children list (`HashMap::get`). -/
def lookupChild : Children → Key → Option Node
  | .nil, _ => none
  | .cons k n rest, key => if key = k then some n else lookupChild rest key

/-- Map insert-or-replace on the children list (`HashMap::insert` /
`entry(..).or_insert_with(..)` followed by mutation), keeping keys sorted. -/
def insertChild (key : Key) (v : Node) : Children → Children
  | .nil => .cons key v .nil
  | .cons k n rest =>
    if keyLt key k then .cons key v (.cons k n rest)
    else if key = k then .cons key v rest
    else .cons k n (insertChild key v rest)

/-- Map removal on the children list (`HashMap::remove`). -/
def eraseChild (key : Key) : Children → Children
  | .nil => .nil
  | .cons k n rest => if key = k then eraseChild key rest else .cons k n (eraseChild key rest)

/-- Metadata of `Node::new_dir`. -/
def dirMeta (mode uid gid : Nat) : NodeMetadata :=
  ⟨false, false, none, none, mode, uid, gid, none, none, none⟩

/-- Model of `Node::new_dir`. -/
def new_dir (mode uid gid : Nat) : Node := .mk (dirMeta mode uid gid) .nil

/-- Metadata of `Node::new_file`. -/
def fileMeta (mode uid gid : Nat) : NodeMetadata :=
  ⟨true, false, none, none, mode, uid, gid, none, none, none⟩

/-- Model of `Node::new_file`. -/
def new_file (mode uid gid : Nat) : Node := .mk (fileMeta mode uid gid) .nil

/-- Overwrite the layer-attribution tag (`metadata.layer_hash = layer_hash.map(..)`). -/
def restampMeta (h : Option Key) (md : NodeMetadata) : NodeMetadata :=
  { md with layer_hash := h }

def restampNode (h : Option Key) : Node → Node
  | .mk md cs => .mk (restampMeta h md) cs

/-- Body of the loop of `Node::ensure_path`, acting on the filtered component
list: get-or-create each component as a directory with this entry's
mode/uid/gid, overwriting each traversed component's layer tag. -/
def ensureParts (mode uid gid : Nat) (h : Option Key) : List Key → Node → Node
  | [], t => t
  | p :: rest, .mk md cs =>
    let c := restampNode h ((lookupChild cs p).getD (new_dir mode uid gid))
    .mk md (insertChild p (ensureParts mode uid gid h rest c) cs)

/-- Model of `Node::ensure_path` (the empty/"." early return is subsumed by
the component filter producing an empty list). -/
def Node.ensure_path (t : Node) (path : Key) (mode uid gid : Nat) (h : Option Key) : Node :=
  ensureParts mode uid gid h (filterParts path) t

/-- The fresh file node built by `Node::put_file` before insertion. -/
def mkFileNode (mode uid gid : Nat) (is_symlink : Bool) (link_target : Option Key)
    (h : Option Key) : Node :=
  .mk { fileMeta mode uid gid with
          is_symlink := is_symlink, symlink_target := link_target, layer_hash := h } .nil

/-- Navigation loop of `Node::put_file`: descend the parent components with
`entry(..).or_insert_with(Node::new_dir(0o755, 0, 0))`, then insert the file
node at the basename. -/
def navPutFile (fnode : Node) (b : Key) : List Key → Node → Node
  | [], .mk md cs => .mk md (insertChild b fnode cs)
  | p :: rest, .mk md cs =>
    let c := (lookupChild cs p).getD (new_dir 0o755 0 0)
    .mk md (insertChild p (navPutFile fnode b rest c) cs)

/-- Model of `Node::put_file`: ensure the parent directory chain (default
mode 0o755, uid/gid 0, restamping the layer tag), then navigate and insert a
fresh file node at the basename, wholesale-replacing any previous node. -/
def Node.put_file (t : Node) (path : Key) (mode uid gid : Nat) (is_symlink : Bool)
    (link_target : Option Key) (h : Option Key) : Node :=
  navPutFile (mkFileNode mode uid gid is_symlink link_target h) (split_path path).2
    (filterParts (split_path path).1)
    (ensureParts 0o755 0 0 h (filterParts (split_path path).1) t)

/-- Recursion of `Node::remove` over the directory components; a missing
component makes the whole operation a no-op. -/
def removeParts : List Key → Key → Node → Node
  | [], b, .mk md cs => .mk md (eraseChild b cs)
  | p :: rest, b, .mk md cs =>
    match lookupChild cs p with
    | none => .mk md cs
    | some c => .mk md (insertChild p (removeParts rest b c) cs)

/-- Model of `Node::remove` (whiteout deletion). -/
def Node.remove (t : Node) (path : Key) : Node :=
  removeParts (filterParts (split_path path).1) (split_path path).2 t

/-- Recursion of `Node::mark_opaque`: descend the components (no-op when a
component is missing) and clear the children of the reached directory.  An
empty component list clears the receiver itself, covering both the
empty/"." early branch and a path whose components all filter away. -/
def markOpaqueParts : List Key → Node → Node
  | [], .mk md _ => .mk md .nil
  | p :: rest, .mk md cs =>
    match lookupChild cs p with
    | none => .mk md cs
    | some c => .mk md (insertChild p (markOpaqueParts rest c) cs)

/-- Model of `Node::mark_opaque`. -/
def Node.mark_opaque (t : Node) (path : Key) : Node :=
  markOpaqueParts (filterParts path) t

/-- Recursion of `Node::set_hardlink_target`: descend, failing (returning
`none`, the model of `Err`) when any component or the final basename is
missing; on success set only the `hardlink_target` display field. -/
def setHardlinkParts (tgt : Key) : List Key → Key → Node → Option Node
  | [], b, .mk md cs =>
    match lookupChild cs b with
    | none => none
    | some (.mk bmd bcs) =>
      some (.mk md (insertChild b (.mk { bmd with hardlink_target := some tgt } bcs) cs))
  | p :: rest, b, .mk md cs =>
    match lookupChild cs p with
    | none => none
    | some c =>
      match setHardlinkParts tgt rest b c with
      | none => none
      | some c2 => some (.mk md (insertChild p c2 cs))

/-- Model of `Node::set_hardlink_target`. -/
def Node.set_hardlink_target (t : Node) (path tgt : Key) : Option Node :=
  setHardlinkParts tgt (filterParts (split_path path).1) (split_path path).2 t

/-- Tar entry kinds distinguished by `apply_entry` in `archive.rs`. -/
inductive EType where
  | directory
  | regular
  | symlink
  | link
  | other
deriving DecidableEq

/-- A decoded tar entry: the fields `apply_entry` reads from the header. -/
structure TarEntry where
  path : Key
  etype : EType
  mode : Nat
  uid : Nat
  gid : Nat
  link_name : Option Key
deriving DecidableEq

/-- Model of Rust `trim_start_matches("./")`: repeatedly strip a leading "./". -/
def trimDotSlash : Key → Key
  | '.' :: '/' :: rest => trimDotSlash rest
  | l => l

/-- Path normalization in `apply_entry`:
`path_str.trim_start_matches("./").trim_end_matches('/')`. -/
def normalizeEntryPath (p : Key) : Key := trimEndSlashes (trimDotSlash p)

/-- Model of `apply_entry` in `archive.rs`: normalize the path, skip empty,
dispatch whiteouts, then dispatch content entries by kind.  A failed
hard-link attachment is dropped (the `put_file` result is kept), mirroring
the warning-only `if let Err` branch. -/
def apply_entry (h : Option Key) (t : Node) (e : TarEntry) : Node :=
  let np := normalizeEntryPath e.path
  if np = [] then t
  else if is_whiteout np then
    if is_opaque np then t.mark_opaque (opaque_dir np)
    else t.remove (whiteout_target np)
  else
    match e.etype with
    | .directory => t.ensure_path np e.mode e.uid e.gid h
    | .regular => t.put_file np e.mode e.uid e.gid false none h
    | .symlink => t.put_file np e.mode e.uid e.gid true e.link_name h
    | .link =>
      let t1 := t.put_file np e.mode e.uid e.gid false none h
      match e.link_name with
      | none => t1
      | some tgt => (t1.set_hardlink_target np tgt).getD t1
    | .other => t

/-- Model of `process_layer_entries`: fold a layer's entries into the tree. -/
def process_layer_entries (h : Option Key) (t : Node) (L : List TarEntry) : Node :=
  L.foldl (apply_entry h) t

/-- One layer as the merge engine sees it: its attribution tag (None when
layer attribution is off) and its decoded entry stream. -/
abbrev Layer := Option Key × List TarEntry

/-- The second pass of `process_archive`: apply layers in manifest order. -/
def run_layers (Ls : List Layer) (t : Node) : Node :=
  Ls.foldl (fun acc l => process_layer_entries l.1 acc l.2) t

/-- The initial root: `Node::new_dir(0o755, 0, 0)`. -/
def root0 : Node := new_dir 0o755 0 0

/-- Resolve a component list in the tree from a node. -/
def find : Node → List Key → Option Node
  | t, [] => some t
  | .mk _ cs, k :: qs =>
    match lookupChild cs k with
    | some c => find c qs
    | none => none

/-- The metadata observed at a component list, or `none` if absent. -/
def obs (t : Node) (q : List Key) : Option NodeMetadata := (find t q).map Node.metadata

/-- One manifest image descriptor (`ManifestEntry` in `manifest.rs`). -/
structure ManifestEntry where
  config : Option Key
  repo_tags : Option (List Key)
  layers : List Key

/-- Model of `parse_manifest`: the serde deserialization of the manifest
bytes is abstracted as its result (`none` models a parse failure). -/
def parse_manifest (decoded : Option (List ManifestEntry)) : Except Key (List Key) :=
  match decoded with
  | none => .error ("Failed to parse manifest.json".data)
  | some [] => .error ("Empty manifest".data)
  | some (e :: _) => .ok e.layers

end Contree

namespace Contree

/-- Opaque markers are a subset of whiteout markers: the fixed basename
".wh..wh..opq" starts with the reserved prefix ".wh.". -/
theorem is_opaque_imp_is_whiteout (p : Key) (h : is_opaque p = true) : is_whiteout p = true := by
  have hb : basenameRaw p = ".wh..wh..opq".data := by
    have h2 := h
    unfold is_opaque at h2
    simpa using h2
  unfold is_whiteout
  rw [hb]
  decide

theorem is_whiteout_nil : is_whiteout [] = false := by decide

/-- Branch lemma: an entry whose normalized path is empty is skipped. -/
theorem apply_entry_skip (h : Option Key) (t : Node) (e : TarEntry)
    (hnp : normalizeEntryPath e.path = []) : apply_entry h t e = t := by
  simp [apply_entry, hnp]

/-- Branch lemma: an opaque-marker entry calls `mark_opaque` on its parent. -/
theorem apply_entry_opq_mark (h : Option Key) (t : Node) (e : TarEntry)
    (hop : is_opaque (normalizeEntryPath e.path) = true) :
    apply_entry h t e = t.mark_opaque (opaque_dir (normalizeEntryPath e.path)) := by
  have hw := is_opaque_imp_is_whiteout _ hop
  have hne : ¬ normalizeEntryPath e.path = [] := by
    intro hnil
    rw [hnil] at hop
    exact absurd hop (by decide)
  simp [apply_entry, hne, hw, hop]

/-- Branch lemma: a plain whiteout entry calls `remove` on its target. -/
theorem apply_entry_whiteout (h : Option Key) (t : Node) (e : TarEntry)
    (hw : is_whiteout (normalizeEntryPath e.path) = true)
    (hop : is_opaque (normalizeEntryPath e.path) = false) :
    apply_entry h t e = t.remove (whiteout_target (normalizeEntryPath e.path)) := by
  have hne : ¬ normalizeEntryPath e.path = [] := by
    intro hnil
    rw [hnil] at hw
    exact absurd hw (by decide)
  simp [apply_entry, hne, hw, hop]

/-- Branch lemma: a directory entry calls `ensure_path`. -/
theorem apply_entry_dir (h : Option Key) (t : Node) (e : TarEntry)
    (hne : ¬ normalizeEntryPath e.path = [])
    (hw : is_whiteout (normalizeEntryPath e.path) = false)
    (het : e.etype = EType.directory) :
    apply_entry h t e = t.ensure_path (normalizeEntryPath e.path) e.mode e.uid e.gid h := by
  simp [apply_entry, hne, hw, het]

/-- Branch lemma: a regular-file entry calls `put_file`. -/
theorem apply_entry_regular (h : Option Key) (t : Node) (e : TarEntry)
    (hne : ¬ normalizeEntryPath e.path = [])
    (hw : is_whiteout (normalizeEntryPath e.path) = false)
    (het : e.etype = EType.regular) :
    apply_entry h t e = t.put_file (normalizeEntryPath e.path) e.mode e.uid e.gid false none h := by
  simp [apply_entry, hne, hw, het]

/-- Branch lemma: a symlink entry calls `put_file` with the raw target. -/
theorem apply_entry_symlink (h : Option Key) (t : Node) (e : TarEntry)
    (hne : ¬ normalizeEntryPath e.path = [])
    (hw : is_whiteout (normalizeEntryPath e.path) = false)
    (het : e.etype = EType.symlink) :
    apply_entry h t e
      = t.put_file (normalizeEntryPath e.path) e.mode e.uid e.gid true e.link_name h := by
  simp [apply_entry, hne, hw, het]

/-- Branch lemma: a hard-link entry materializes the file, then attempts the
display-target attachment, keeping the file tree when the attachment fails. -/
theorem apply_entry_link (h : Option Key) (t : Node) (e : TarEntry)
    (hne : ¬ normalizeEntryPath e.path = [])
    (hw : is_whiteout (normalizeEntryPath e.path) = false)
    (het : e.etype = EType.link) :
    apply_entry h t e
      = (match e.link_name with
          | none => t.put_file (normalizeEntryPath e.path) e.mode e.uid e.gid false none h
          | some tgt =>
            ((t.put_file (normalizeEntryPath e.path) e.mode e.uid e.gid false none
                h).set_hardlink_target (normalizeEntryPath e.path) tgt).getD
              (t.put_file (normalizeEntryPath e.path) e.mode e.uid e.gid false none h)) := by
  simp [apply_entry, hne, hw, het]

/-- Branch lemma: other entry kinds (devices, fifos, ...) are ignored. -/
theorem apply_entry_other (h : Option Key) (t : Node) (e : TarEntry)
    (hne : ¬ normalizeEntryPath e.path = [])
    (hw : is_whiteout (normalizeEntryPath e.path) = false)
    (het : e.etype = EType.other) :
    apply_entry h t e = t := by
  simp [apply_entry, hne, hw, het]

/-- C7: the whiteout classifier computes the documented examples, and for
every path an opaque marker is also a whiteout (opaque names are a strict
subset of whiteout names, witnessed by ".wh.c"). -/
theorem whiteout_classifier_spec :
    whiteout_target ("a/b/.wh.c".data) = "a/b/c".data
    ∧ opaque_dir ("a/b/.wh..wh..opq".data) = "a/b".data
    ∧ is_whiteout (".wh..wh..opq".data) = true
    ∧ is_whiteout (".wh.c".data) = true
    ∧ is_opaque (".wh.c".data) = false
    ∧ ∀ p : Key, is_opaque p = true → is_whiteout p = true := by
  refine ⟨by decide, by decide, by decide, by decide, by decide, ?_⟩
  exact fun p hp => is_opaque_imp_is_whiteout p hp

/-- Witness for C7 at a concrete opaque marker path. -/
theorem whiteout_classifier_spec_witness : is_whiteout ("x/.wh..wh..opq".data) = true :=
  whiteout_classifier_spec.2.2.2.2.2 ("x/.wh..wh..opq".data) (by decide)

/-- C9: `parse_manifest` returns the ordered layer list of the first image
descriptor when the bytes decode to a non-empty descriptor list, and errors
exactly when decoding fails or the list is empty. -/
theorem parse_manifest_spec :
    ∀ d : Option (List ManifestEntry),
      (∀ e rest, d = some (e :: rest) → parse_manifest d = Except.ok e.layers)
      ∧ ((∃ msg, parse_manifest d = Except.error msg) ↔ d = none ∨ d = some []) := by
  intro d
  constructor
  · intro e rest hd
    subst hd
    rfl
  · cases d with
    | none => simp [parse_manifest]
    | some l =>
      cases l with
      | nil => simp [parse_manifest]
      | cons e rest => simp [parse_manifest]

/-- Witness for C9 at a concrete one-descriptor manifest. -/
theorem parse_manifest_spec_witness :
    parse_manifest (some [⟨none, none, [("l1/layer.tar".data)]⟩])
      = Except.ok [("l1/layer.tar".data)] :=
  (parse_manifest_spec (some [⟨none, none, [("l1/layer.tar".data)]⟩])).1 _ _ rfl

/-- C10: `mark_opaque` on the empty path or "." clears all children of the
receiving (root) node, and applying an opaque-marker entry at the archive
root (path ".wh..wh..opq", whose `opaque_dir` is "") empties the whole top
level of the accumulated tree while keeping the root's metadata. -/
theorem mark_opaque_root_clears_top_level :
    ∀ (t : Node) (h : Option Key) (et : EType) (m u g : Nat) (ln : Option Key),
      t.mark_opaque ("".data) = Node.mk t.metadata Children.nil
      ∧ t.mark_opaque (".".data) = Node.mk t.metadata Children.nil
      ∧ opaque_dir (".wh..wh..opq".data) = "".data
      ∧ apply_entry h t ⟨".wh..wh..opq".data, et, m, u, g, ln⟩ = Node.mk t.metadata Children.nil := by
  intro t h et m u g ln
  obtain ⟨md, cs⟩ := t
  exact ⟨rfl, rfl, by decide, rfl⟩

/-- C3 counterexample: layer 1 creates directory "a" with mode 0o700, uid 1,
gid 1; a later directory entry at "a" with mode 0o755, uid 2, gid 3 does NOT
overwrite the existing leaf's mode/uid/gid — the leaf keeps (0o700, 1, 1),
contradicting the claim that the leaf's mode, uid and gid are overwritten
with the new entry's values. -/
theorem ensure_path_existing_leaf_cex :
    ((obs (apply_entry none (apply_entry none root0 ⟨"a".data, .directory, 0o700, 1, 1, none⟩)
        ⟨"a".data, .directory, 0o755, 2, 3, none⟩) [("a".data)]).map
        (fun m => (m.mode, m.uid, m.gid)) = some (0o700, 1, 1))
    ∧ ((0o700, 1, 1) : Nat × Nat × Nat) ≠ (0o755, 2, 3) := by
  exact ⟨by decide, by decide⟩

/-- C4 counterexample: normalization drops EVERY leading "./" (not just one:
"././a" becomes "a", not "./a") and EVERY trailing "/" ("a//" becomes "a",
not "a/"); and an entry whose normalized path is "." is NOT dropped: a
regular-file entry at "." inserts a child named "." into the root, changing
the tree. -/
theorem normalize_entry_path_cex :
    normalizeEntryPath ("././a".data) = "a".data
    ∧ "a".data ≠ "./a".data
    ∧ normalizeEntryPath ("a//".data) = "a".data
    ∧ "a".data ≠ "a/".data
    ∧ normalizeEntryPath (".".data) = ".".data
    ∧ (find (apply_entry none root0 ⟨".".data, .regular, 0o644, 0, 0, none⟩) [(".".data)]).isSome
        = true
    ∧ (find root0 [(".".data)]).isSome = false := by
  decide

/-- C6 counterexample: path "a" is populated by layer 1, deleted by the plain
whiteout ".wh.a" in layer 2, yet present in the final tree because layer 3
re-creates it — contradicting the unconditional "absent from the final
tree". -/
theorem whiteout_delete_readd_cex :
    (find (run_layers [(none, [⟨"a".data, .regular, 0o644, 0, 0, none⟩]),
        (none, [⟨".wh.a".data, .regular, 0, 0, 0, none⟩]),
        (none, [⟨"a".data, .regular, 0o644, 0, 0, none⟩])] root0) [("a".data)]).isSome = true := by
  decide

end Contree

namespace Contree

theorem pfx_self_append {α : Type} [DecidableEq α] (l r : List α) : pfx l (l ++ r) = true := by
  induction l with
  | nil => rfl
  | cons a as ih => simp [pfx, ih]

theorem pfx_rfl {α : Type} [DecidableEq α] (l : List α) : pfx l l = true := by
  have := pfx_self_append l []
  simpa using this

theorem pfx_nil_iff {α : Type} [DecidableEq α] (l : List α) : pfx l [] = true ↔ l = [] := by
  cases l <;> simp [pfx]

theorem obs_nil_path (t : Node) : obs t [] = some t.metadata := by
  cases t
  rfl

theorem find_cons (md : NodeMetadata) (cs : Children) (k : Key) (qs : List Key) :
    find (Node.mk md cs) (k :: qs)
      = match lookupChild cs k with
        | some c => find c qs
        | none => none := rfl

theorem obs_cons_some {cs : Children} {k : Key} {c : Node} (md : NodeMetadata) (qs : List Key)
    (hc : lookupChild cs k = some c) : obs (Node.mk md cs) (k :: qs) = obs c qs := by
  unfold obs
  rw [find_cons, hc]

theorem obs_cons_none {cs : Children} {k : Key} (md : NodeMetadata) (qs : List Key)
    (hc : lookupChild cs k = none) : obs (Node.mk md cs) (k :: qs) = none := by
  unfold obs
  rw [find_cons, hc]
  rfl

theorem lookup_insertChild : ∀ (cs : Children) (k j : Key) (v : Node),
    lookupChild (insertChild k v cs) j = if j = k then some v else lookupChild cs j
  | .nil, k, j, v => by
    by_cases hj : j = k <;> simp [insertChild, lookupChild, hj]
  | .cons k2 n rest, k, j, v => by
    have ih := lookup_insertChild rest k j v
    by_cases hlt : keyLt k k2
    · by_cases hj : j = k <;> simp [insertChild, lookupChild, hlt, hj]
    · by_cases heq : k = k2
      · subst heq
        by_cases hj : j = k <;> simp [insertChild, lookupChild, hlt, hj]
      · have hk2 : ¬ k2 = k := fun hh => heq hh.symm
        by_cases hj : j = k
        · subst hj
          simp [insertChild, lookupChild, hlt, heq, ih]
        · by_cases hj2 : j = k2 <;> simp [insertChild, lookupChild, hlt, heq, hj, hj2, ih, hk2]

theorem lookup_eraseChild : ∀ (cs : Children) (k j : Key),
    lookupChild (eraseChild k cs) j = if j = k then none else lookupChild cs j
  | .nil, k, j => by
    by_cases hj : j = k <;> simp [eraseChild, lookupChild, hj]
  | .cons k2 n rest, k, j => by
    have ih := lookup_eraseChild rest k j
    by_cases hk : k = k2
    · subst hk
      by_cases hj : j = k
      · subst hj
        simp [eraseChild, lookupChild, ih]
      · simp [eraseChild, lookupChild, hj, ih]
    · by_cases hj : j = k2
      · subst hj
        have hjk : ¬ j = k := fun hh => hk hh.symm
        simp [eraseChild, lookupChild, hk, hjk]
      · by_cases hjk : j = k
        · subst hjk
          simp [eraseChild, lookupChild, hk, hj, ih]
        · simp [eraseChild, lookupChild, hk, hj, hjk, ih]

theorem obs_restamp_cons (h : Option Key) (c : Node) (k : Key) (qs : List Key) :
    obs (restampNode h c) (k :: qs) = obs c (k :: qs) := by
  cases c
  rfl

theorem metadata_restamp (h : Option Key) (c : Node) :
    (restampNode h c).metadata = restampMeta h c.metadata := by
  cases c
  rfl

/-- Per-path effect of the `ensure_path` loop: every non-empty prefix of the
traversed component list is created (as a directory with this entry's
mode/uid/gid) or kept as-is, and in both cases its layer tag is overwritten;
every other path is untouched. -/
theorem obs_ensureParts (ps : List Key) :
    ∀ (m u g : Nat) (h : Option Key) (t : Node) (q : List Key),
      obs (ensureParts m u g h ps t) q
        = if q ≠ [] ∧ pfx q ps = true
            then some (restampMeta h ((obs t q).getD (dirMeta m u g)))
            else obs t q := by
  induction ps with
  | nil =>
    intro m u g h t q
    have hcond : ¬ (q ≠ [] ∧ pfx q [] = true) := by
      rintro ⟨hq, hp⟩
      exact hq ((pfx_nil_iff q).mp hp)
    simp [ensureParts, hcond]
  | cons p rest ih =>
    intro m u g h t q
    obtain ⟨md, cs⟩ := t
    show obs (Node.mk md (insertChild p
        (ensureParts m u g h rest
          (restampNode h ((lookupChild cs p).getD (new_dir m u g)))) cs)) q = _
    cases q with
    | nil =>
      rw [if_neg (by rintro ⟨hq, _⟩; exact hq rfl : ¬ (([] : List Key) ≠ []
        ∧ pfx ([] : List Key) (p :: rest) = true)), obs_nil_path, obs_nil_path]
      rfl
    | cons k qs =>
      by_cases hk : k = p
      · subst hk
        have hlk : lookupChild (insertChild k
            (ensureParts m u g h rest (restampNode h ((lookupChild cs k).getD (new_dir m u g)))) cs) k
            = some (ensureParts m u g h rest
                (restampNode h ((lookupChild cs k).getD (new_dir m u g)))) := by
          rw [lookup_insertChild]
          simp
        rw [obs_cons_some md qs hlk, ih]
        cases qs with
        | nil =>
          rw [if_neg (fun hh => hh.1 rfl), if_pos (⟨by simp, by simp [pfx]⟩ :
            (k :: ([] : List Key)) ≠ [] ∧ pfx (k :: ([] : List Key)) (k :: rest) = true)]
          rw [obs_nil_path, metadata_restamp]
          cases hc : lookupChild cs k with
          | none =>
            rw [obs_cons_none md ([] : List Key) hc]
            rfl
          | some c0 =>
            rw [obs_cons_some md ([] : List Key) hc, obs_nil_path]
            rfl
        | cons k2 qs2 =>
          have hsplit : obs (restampNode h ((lookupChild cs k).getD (new_dir m u g))) (k2 :: qs2)
              = obs (Node.mk md cs) (k :: k2 :: qs2) := by
            rw [obs_restamp_cons]
            cases hc : lookupChild cs k with
            | none =>
              rw [obs_cons_none md (k2 :: qs2) hc]
              rfl
            | some c0 =>
              rw [obs_cons_some md (k2 :: qs2) hc]
              rfl
          rw [hsplit]
          by_cases hp2 : pfx (k2 :: qs2) rest = true
          · rw [if_pos ⟨by simp, hp2⟩, if_pos (⟨by simp, by simpa [pfx] using hp2⟩ :
              (k :: k2 :: qs2) ≠ [] ∧ pfx (k :: k2 :: qs2) (k :: rest) = true)]
          · have hpfx : pfx (k :: k2 :: qs2) (k :: rest) = pfx (k2 :: qs2) rest := by simp [pfx]
            rw [if_neg (fun hh => hp2 hh.2),
              if_neg (fun hh => hp2 (by rw [hpfx] at hh; exact hh.2))]
      · have hlk : lookupChild (insertChild p
            (ensureParts m u g h rest (restampNode h ((lookupChild cs p).getD (new_dir m u g)))) cs) k
            = lookupChild cs k := by
          rw [lookup_insertChild, if_neg hk]
        have hcond : ¬ ((k :: qs) ≠ [] ∧ pfx (k :: qs) (p :: rest) = true) := by
          rintro ⟨_, hp⟩
          simp [pfx, hk] at hp
        rw [if_neg hcond]
        cases hc : lookupChild cs k with
        | none => rw [obs_cons_none md qs (by rw [hlk]; exact hc), obs_cons_none md qs hc]
        | some c0 => rw [obs_cons_some md qs (by rw [hlk]; exact hc), obs_cons_some md qs hc]

end Contree

namespace Contree

theorem pfx_cons_iff {α : Type} [DecidableEq α] (a : α) (as l : List α) :
    pfx (a :: as) l = true ↔ ∃ bs, l = a :: bs ∧ pfx as bs = true := by
  cases l with
  | nil => simp [pfx]
  | cons b bs =>
    by_cases hab : a = b
    · subst hab
      simp [pfx]
    · have hba : ¬ b = a := fun hh => hab hh.symm
      simp [pfx, hab, hba]

theorem obs_children_only (md1 md2 : NodeMetadata) (cs : Children) (k : Key) (qs : List Key) :
    obs (Node.mk md1 cs) (k :: qs) = obs (Node.mk md2 cs) (k :: qs) := by
  unfold obs
  rw [find_cons, find_cons]

theorem obs_getD_cons (md : NodeMetadata) (cs : Children) (dm du dg : Nat) (k k2 : Key)
    (qs2 : List Key) :
    obs ((lookupChild cs k).getD (new_dir dm du dg)) (k2 :: qs2)
      = obs (Node.mk md cs) (k :: k2 :: qs2) := by
  cases hc : lookupChild cs k with
  | none =>
    rw [obs_cons_none md (k2 :: qs2) hc]
    rfl
  | some c0 =>
    rw [obs_cons_some md (k2 :: qs2) hc]
    rfl

theorem removeParts_cons_none (p : Key) (rest : List Key) (b : Key) (md : NodeMetadata)
    (cs : Children) (hcp : lookupChild cs p = none) :
    removeParts (p :: rest) b (Node.mk md cs) = Node.mk md cs := by
  show (match lookupChild cs p with
        | none => Node.mk md cs
        | some c => Node.mk md (insertChild p (removeParts rest b c) cs)) = Node.mk md cs
  rw [hcp]

theorem removeParts_cons_some (p : Key) (rest : List Key) (b : Key) (md : NodeMetadata)
    (cs : Children) (c : Node) (hcp : lookupChild cs p = some c) :
    removeParts (p :: rest) b (Node.mk md cs)
      = Node.mk md (insertChild p (removeParts rest b c) cs) := by
  show (match lookupChild cs p with
        | none => Node.mk md cs
        | some c => Node.mk md (insertChild p (removeParts rest b c) cs))
      = Node.mk md (insertChild p (removeParts rest b c) cs)
  rw [hcp]

theorem markOpaqueParts_cons_none (p : Key) (rest : List Key) (md : NodeMetadata)
    (cs : Children) (hcp : lookupChild cs p = none) :
    markOpaqueParts (p :: rest) (Node.mk md cs) = Node.mk md cs := by
  show (match lookupChild cs p with
        | none => Node.mk md cs
        | some c => Node.mk md (insertChild p (markOpaqueParts rest c) cs)) = Node.mk md cs
  rw [hcp]

theorem markOpaqueParts_cons_some (p : Key) (rest : List Key) (md : NodeMetadata)
    (cs : Children) (c : Node) (hcp : lookupChild cs p = some c) :
    markOpaqueParts (p :: rest) (Node.mk md cs)
      = Node.mk md (insertChild p (markOpaqueParts rest c) cs) := by
  show (match lookupChild cs p with
        | none => Node.mk md cs
        | some c => Node.mk md (insertChild p (markOpaqueParts rest c) cs))
      = Node.mk md (insertChild p (markOpaqueParts rest c) cs)
  rw [hcp]

/-- Per-path effect of `Node::remove`: everything at or below the target
component list disappears; every other path is untouched (including the
whole tree when an intermediate component is missing). -/
theorem obs_removeParts : ∀ (ss : List Key) (b : Key) (t : Node) (q : List Key),
    obs (removeParts ss b t) q = if pfx (ss ++ [b]) q = true then none else obs t q
  | [], b, t, q => by
    obtain ⟨md, cs⟩ := t
    show obs (Node.mk md (eraseChild b cs)) q = _
    cases q with
    | nil =>
      rw [if_neg (by simp [pfx] : ¬ pfx (([] : List Key) ++ [b]) [] = true),
        obs_nil_path, obs_nil_path]
      rfl
    | cons k qs =>
      by_cases hk : k = b
      · subst hk
        have hl : lookupChild (eraseChild k cs) k = none := by
          rw [lookup_eraseChild]
          simp
        rw [obs_cons_none md qs hl,
          if_pos (by simp [pfx] : pfx (([] : List Key) ++ [k]) (k :: qs) = true)]
      · have hbk : ¬ b = k := fun hh => hk hh.symm
        have hl : lookupChild (eraseChild b cs) k = lookupChild cs k := by
          rw [lookup_eraseChild, if_neg hk]
        rw [if_neg (by simp [pfx, hbk] : ¬ pfx (([] : List Key) ++ [b]) (k :: qs) = true)]
        cases hc : lookupChild cs k with
        | none => rw [obs_cons_none md qs (by rw [hl]; exact hc), obs_cons_none md qs hc]
        | some c0 => rw [obs_cons_some md qs (by rw [hl]; exact hc), obs_cons_some md qs hc]
  | p :: rest, b, t, q => by
    have ih := obs_removeParts rest b
    obtain ⟨md, cs⟩ := t
    have happ : (p :: rest) ++ [b] = p :: (rest ++ [b]) := rfl
    rw [happ]
    cases hcp : lookupChild cs p with
    | none =>
      rw [removeParts_cons_none p rest b md cs hcp]
      by_cases hq : pfx (p :: (rest ++ [b])) q = true
      · rw [if_pos hq]
        rw [pfx_cons_iff] at hq
        obtain ⟨qs, rfl, _⟩ := hq
        rw [obs_cons_none md qs hcp]
      · rw [if_neg hq]
    | some c =>
      rw [removeParts_cons_some p rest b md cs c hcp]
      cases q with
      | nil =>
        rw [if_neg (by simp [pfx] : ¬ pfx (p :: (rest ++ [b])) [] = true),
          obs_nil_path, obs_nil_path]
        rfl
      | cons k qs =>
        by_cases hk : k = p
        · subst hk
          have hl : lookupChild (insertChild k (removeParts rest b c) cs) k
              = some (removeParts rest b c) := by
            rw [lookup_insertChild]
            simp
          rw [obs_cons_some md qs hl, ih c qs, obs_cons_some md qs hcp]
          have he : pfx (k :: (rest ++ [b])) (k :: qs) = pfx (rest ++ [b]) qs := by simp [pfx]
          rw [he]
        · have hpk : ¬ p = k := fun hh => hk hh.symm
          have hl : lookupChild (insertChild p (removeParts rest b c) cs) k = lookupChild cs k := by
            rw [lookup_insertChild, if_neg hk]
          rw [if_neg (by simp [pfx, hpk] : ¬ pfx (p :: (rest ++ [b])) (k :: qs) = true)]
          cases hc : lookupChild cs k with
          | none => rw [obs_cons_none md qs (by rw [hl]; exact hc), obs_cons_none md qs hc]
          | some c0 => rw [obs_cons_some md qs (by rw [hl]; exact hc), obs_cons_some md qs hc]

/-- Per-path effect of `Node::mark_opaque`: every strict descendant of the
marked directory disappears; the directory itself keeps its metadata; every
other path is untouched (including when the directory is absent). -/
theorem obs_markOpaqueParts : ∀ (ps : List Key) (t : Node) (q : List Key),
    obs (markOpaqueParts ps t) q = if pfx ps q = true ∧ q ≠ ps then none else obs t q
  | [], t, q => by
    obtain ⟨md, cs⟩ := t
    show obs (Node.mk md Children.nil) q = _
    cases q with
    | nil =>
      rw [if_neg (fun hh => hh.2 rfl), obs_nil_path, obs_nil_path]
      rfl
    | cons k qs =>
      rw [if_pos ⟨rfl, by simp⟩]
      exact obs_cons_none md qs rfl
  | p :: rest, t, q => by
    have ih := obs_markOpaqueParts rest
    obtain ⟨md, cs⟩ := t
    cases hcp : lookupChild cs p with
    | none =>
      rw [markOpaqueParts_cons_none p rest md cs hcp]
      by_cases hq : pfx (p :: rest) q = true ∧ q ≠ p :: rest
      · rw [if_pos hq]
        have hq1 := hq.1
        rw [pfx_cons_iff] at hq1
        obtain ⟨qs, rfl, _⟩ := hq1
        rw [obs_cons_none md qs hcp]
      · rw [if_neg hq]
    | some c =>
      rw [markOpaqueParts_cons_some p rest md cs c hcp]
      cases q with
      | nil =>
        rw [if_neg (by rintro ⟨hp, _⟩; simp [pfx] at hp), obs_nil_path, obs_nil_path]
        rfl
      | cons k qs =>
        by_cases hk : k = p
        · subst hk
          have hl : lookupChild (insertChild k (markOpaqueParts rest c) cs) k
              = some (markOpaqueParts rest c) := by
            rw [lookup_insertChild]
            simp
          rw [obs_cons_some md qs hl, ih c qs, obs_cons_some md qs hcp]
          by_cases h2 : pfx rest qs = true ∧ qs ≠ rest
          · rw [if_pos h2, if_pos ⟨by simp [pfx, h2.1], by simp [h2.2]⟩]
          · rw [if_neg h2, if_neg (fun hh => h2 ⟨by simpa [pfx] using hh.1,
              fun hqr => hh.2 (by rw [hqr])⟩)]
        · have hpk : ¬ p = k := fun hh => hk hh.symm
          have hl : lookupChild (insertChild p (markOpaqueParts rest c) cs) k = lookupChild cs k := by
            rw [lookup_insertChild, if_neg hk]
          rw [if_neg (by rintro ⟨hp, _⟩; simp [pfx, hpk] at hp)]
          cases hc : lookupChild cs k with
          | none => rw [obs_cons_none md qs (by rw [hl]; exact hc), obs_cons_none md qs hc]
          | some c0 => rw [obs_cons_some md qs (by rw [hl]; exact hc), obs_cons_some md qs hc]

end Contree

namespace Contree

theorem navPutFile_cons (p : Key) (rest : List Key) (fnode : Node) (b : Key)
    (md : NodeMetadata) (cs : Children) :
    navPutFile fnode b (p :: rest) (Node.mk md cs)
      = Node.mk md (insertChild p
          (navPutFile fnode b rest ((lookupChild cs p).getD (new_dir 0o755 0 0))) cs) := rfl

/-- Per-path effect of the navigation loop of `put_file`: the basename slot
gets exactly the fresh file node (so everything strictly below it is gone),
missing parent components are synthesized as bare 0o755 directories, and
every other path is untouched. -/
theorem obs_navPutFile : ∀ (ss : List Key) (fm : NodeMetadata) (b : Key) (t : Node) (q : List Key),
    obs (navPutFile (Node.mk fm Children.nil) b ss t) q
      = if q = ss ++ [b] then some fm
        else if pfx (ss ++ [b]) q = true then none
        else if q ≠ [] ∧ pfx q ss = true then some ((obs t q).getD (dirMeta 0o755 0 0))
        else obs t q
  | [], fm, b, t, q => by
    obtain ⟨md, cs⟩ := t
    show obs (Node.mk md (insertChild b (Node.mk fm Children.nil) cs)) q = _
    cases q with
    | nil =>
      rw [if_neg (by simp : ¬ ([] : List Key) = [] ++ [b]),
        if_neg (by simp [pfx] : ¬ pfx (([] : List Key) ++ [b]) [] = true),
        if_neg (fun hh => hh.1 rfl), obs_nil_path, obs_nil_path]
      rfl
    | cons k qs =>
      by_cases hk : k = b
      · subst hk
        have hl : lookupChild (insertChild k (Node.mk fm Children.nil) cs) k
            = some (Node.mk fm Children.nil) := by
          rw [lookup_insertChild]
          simp
        rw [obs_cons_some md qs hl]
        cases qs with
        | nil =>
          rw [if_pos (by simp : (k :: ([] : List Key)) = [] ++ [k]), obs_nil_path]
          rfl
        | cons k2 qs2 =>
          rw [obs_cons_none fm qs2 (by rfl : lookupChild Children.nil k2 = none),
            if_neg (by simp : ¬ (k :: k2 :: qs2) = [] ++ [k]),
            if_pos (by simp [pfx] : pfx (([] : List Key) ++ [k]) (k :: k2 :: qs2) = true)]
      · have hbk : ¬ b = k := fun hh => hk hh.symm
        have hl : lookupChild (insertChild b (Node.mk fm Children.nil) cs) k
            = lookupChild cs k := by
          rw [lookup_insertChild, if_neg hk]
        rw [if_neg (by simp [hk] : ¬ (k :: qs) = [] ++ [b]),
          if_neg (by simp [pfx, hbk] : ¬ pfx (([] : List Key) ++ [b]) (k :: qs) = true),
          if_neg (fun hh => List.cons_ne_nil k qs ((pfx_nil_iff _).mp hh.2))]
        cases hc : lookupChild cs k with
        | none => rw [obs_cons_none md qs (by rw [hl]; exact hc), obs_cons_none md qs hc]
        | some c0 => rw [obs_cons_some md qs (by rw [hl]; exact hc), obs_cons_some md qs hc]
  | p :: rest, fm, b, t, q => by
    have ih := obs_navPutFile rest fm b
    obtain ⟨md, cs⟩ := t
    rw [navPutFile_cons]
    have happ : (p :: rest) ++ [b] = p :: (rest ++ [b]) := rfl
    rw [happ]
    cases q with
    | nil =>
      rw [if_neg (by simp : ¬ ([] : List Key) = p :: (rest ++ [b])),
        if_neg (by simp [pfx] : ¬ pfx (p :: (rest ++ [b])) [] = true),
        if_neg (fun hh => hh.1 rfl), obs_nil_path, obs_nil_path]
      rfl
    | cons k qs =>
      by_cases hk : k = p
      · subst hk
        have hl : lookupChild (insertChild k (navPutFile (Node.mk fm Children.nil) b rest
            ((lookupChild cs k).getD (new_dir 0o755 0 0))) cs) k
            = some (navPutFile (Node.mk fm Children.nil) b rest
                ((lookupChild cs k).getD (new_dir 0o755 0 0))) := by
          rw [lookup_insertChild]
          simp
        rw [obs_cons_some md qs hl, ih]
        cases qs with
        | nil =>
          rw [if_neg (by simp : ¬ ([] : List Key) = rest ++ [b]),
            if_neg (by simp [pfx_nil_iff] : ¬ pfx (rest ++ [b]) ([] : List Key) = true),
            if_neg (fun hh => hh.1 rfl),
            if_neg (by simp : ¬ (k :: ([] : List Key)) = k :: (rest ++ [b])),
            if_neg (by simp [pfx, pfx_nil_iff] :
              ¬ pfx (k :: (rest ++ [b])) (k :: ([] : List Key)) = true),
            if_pos (⟨by simp, by simp [pfx]⟩ : (k :: ([] : List Key)) ≠ []
              ∧ pfx (k :: ([] : List Key)) (k :: rest) = true),
            obs_nil_path]
          cases hc : lookupChild cs k with
          | none =>
            rw [obs_cons_none md ([] : List Key) hc]
            rfl
          | some c0 =>
            rw [obs_cons_some md ([] : List Key) hc, obs_nil_path]
            rfl
        | cons k2 qs2 =>
          rw [obs_getD_cons md cs 0o755 0 0 k k2 qs2]
          by_cases h1 : (k2 :: qs2) = rest ++ [b]
          · have r1 : (k :: k2 :: qs2) = k :: (rest ++ [b]) := by rw [h1]
            rw [if_pos h1, if_pos r1]
          · have r1 : ¬ (k :: k2 :: qs2) = k :: (rest ++ [b]) := by
              intro hh
              apply h1
              simpa using hh
            rw [if_neg h1, if_neg r1]
            by_cases h2 : pfx (rest ++ [b]) (k2 :: qs2) = true
            · have r2 : pfx (k :: (rest ++ [b])) (k :: k2 :: qs2) = true := by
                simpa [pfx] using h2
              rw [if_pos h2, if_pos r2]
            · have r2 : ¬ pfx (k :: (rest ++ [b])) (k :: k2 :: qs2) = true := by
                intro hh
                apply h2
                simpa [pfx] using hh
              rw [if_neg h2, if_neg r2]
              by_cases h3 : pfx (k2 :: qs2) rest = true
              · have l3 : (k2 :: qs2) ≠ [] ∧ pfx (k2 :: qs2) rest = true := ⟨by simp, h3⟩
                have r3 : (k :: k2 :: qs2) ≠ [] ∧ pfx (k :: k2 :: qs2) (k :: rest) = true :=
                  ⟨by simp, by simpa [pfx] using h3⟩
                rw [if_pos l3, if_pos r3]
              · have l3 : ¬ ((k2 :: qs2) ≠ [] ∧ pfx (k2 :: qs2) rest = true) := fun hh => h3 hh.2
                have r3 : ¬ ((k :: k2 :: qs2) ≠ [] ∧ pfx (k :: k2 :: qs2) (k :: rest) = true) := by
                  intro hh
                  apply h3
                  simpa [pfx] using hh.2
                rw [if_neg l3, if_neg r3]
      · have hpk : ¬ p = k := fun hh => hk hh.symm
        have hl : lookupChild (insertChild p (navPutFile (Node.mk fm Children.nil) b rest
            ((lookupChild cs p).getD (new_dir 0o755 0 0))) cs) k = lookupChild cs k := by
          rw [lookup_insertChild, if_neg hk]
        rw [if_neg (by simp [hk] : ¬ (k :: qs) = p :: (rest ++ [b])),
          if_neg (by simp [pfx, hpk] : ¬ pfx (p :: (rest ++ [b])) (k :: qs) = true),
          if_neg (by rintro ⟨_, hp⟩; simp [pfx, hk] at hp :
            ¬ ((k :: qs) ≠ [] ∧ pfx (k :: qs) (p :: rest) = true))]
        cases hc : lookupChild cs k with
        | none => rw [obs_cons_none md qs (by rw [hl]; exact hc), obs_cons_none md qs hc]
        | some c0 => rw [obs_cons_some md qs (by rw [hl]; exact hc), obs_cons_some md qs hc]

/-- Per-path effect of `Node::put_file`: the target path gets exactly the new
file node's metadata (pruning the whole prior subtree there), missing parents
are synthesized with default metadata, parents get their layer tag restamped,
and everything else is untouched. -/
theorem obs_put_file (t : Node) (path : Key) (mode uid gid : Nat) (sym : Bool)
    (lt : Option Key) (h : Option Key) (q : List Key) :
    obs (t.put_file path mode uid gid sym lt h) q
      = if q = filterParts (split_path path).1 ++ [(split_path path).2]
          then some { fileMeta mode uid gid with
                        is_symlink := sym, symlink_target := lt, layer_hash := h }
        else if pfx (filterParts (split_path path).1 ++ [(split_path path).2]) q = true then none
        else if q ≠ [] ∧ pfx q (filterParts (split_path path).1) = true
          then some (restampMeta h ((obs t q).getD (dirMeta 0o755 0 0)))
        else obs t q := by
  show obs (navPutFile (Node.mk { fileMeta mode uid gid with
      is_symlink := sym, symlink_target := lt, layer_hash := h } Children.nil)
      (split_path path).2 (filterParts (split_path path).1)
      (ensureParts 0o755 0 0 h (filterParts (split_path path).1) t)) q = _
  rw [obs_navPutFile, obs_ensureParts]
  by_cases h1 : q = filterParts (split_path path).1 ++ [(split_path path).2]
  · rw [if_pos h1, if_pos h1]
  · rw [if_neg h1, if_neg h1]
    by_cases h2 : pfx (filterParts (split_path path).1 ++ [(split_path path).2]) q = true
    · rw [if_pos h2, if_pos h2]
    · rw [if_neg h2, if_neg h2]
      by_cases h3 : q ≠ [] ∧ pfx q (filterParts (split_path path).1) = true
      · simp only [if_pos h3, Option.getD_some]
      · simp only [if_neg h3]

theorem find_navPutFile : ∀ (ss : List Key) (fnode : Node) (b : Key) (t : Node),
    find (navPutFile fnode b ss t) (ss ++ [b]) = some fnode
  | [], fnode, b, t => by
    obtain ⟨md, cs⟩ := t
    show find (Node.mk md (insertChild b fnode cs)) ([] ++ [b]) = some fnode
    rw [List.nil_append, find_cons, lookup_insertChild]
    simp [find]
  | p :: rest, fnode, b, t => by
    have ih := find_navPutFile rest fnode b
    obtain ⟨md, cs⟩ := t
    rw [navPutFile_cons, List.cons_append, find_cons, lookup_insertChild]
    simp [ih]

/-- The node `put_file` leaves at its target path is exactly the fresh file
node: new metadata, no children. -/
theorem find_put_file (t : Node) (path : Key) (mode uid gid : Nat) (sym : Bool)
    (lt : Option Key) (h : Option Key) :
    find (t.put_file path mode uid gid sym lt h)
        (filterParts (split_path path).1 ++ [(split_path path).2])
      = some (mkFileNode mode uid gid sym lt h) :=
  find_navPutFile (filterParts (split_path path).1) (mkFileNode mode uid gid sym lt h)
    (split_path path).2 (ensureParts 0o755 0 0 h (filterParts (split_path path).1) t)

end Contree

namespace Contree

theorem setHardlinkParts_nil_eq (tgt b : Key) (md : NodeMetadata) (cs : Children) :
    setHardlinkParts tgt [] b (Node.mk md cs)
      = match lookupChild cs b with
        | none => none
        | some (.mk bmd bcs) =>
          some (Node.mk md (insertChild b
            (Node.mk { bmd with hardlink_target := some tgt } bcs) cs)) := rfl

theorem setHardlinkParts_cons_eq (tgt p : Key) (rest : List Key) (b : Key)
    (md : NodeMetadata) (cs : Children) :
    setHardlinkParts tgt (p :: rest) b (Node.mk md cs)
      = match lookupChild cs p with
        | none => none
        | some c =>
          match setHardlinkParts tgt rest b c with
          | none => none
          | some c2 => some (Node.mk md (insertChild p c2 cs)) := rfl

/-- When the target path exists, `set_hardlink_target` succeeds, sets only the
`hardlink_target` display field of the node there, and leaves every other
path's observation unchanged. -/
theorem setHardlinkParts_found : ∀ (ss : List Key) (tgt b : Key) (t : Node) (n : Node),
    find t (ss ++ [b]) = some n →
    ∃ t2, setHardlinkParts tgt ss b t = some t2
      ∧ find t2 (ss ++ [b])
          = some (Node.mk { n.metadata with hardlink_target := some tgt } n.children)
      ∧ ∀ q : List Key, q ≠ ss ++ [b] → obs t2 q = obs t q
  | [], tgt, b, t, n, hf => by
    obtain ⟨md, cs⟩ := t
    obtain ⟨bmd, bcs⟩ := n
    rw [List.nil_append, find_cons] at hf
    cases hc : lookupChild cs b with
    | none =>
      rw [hc] at hf
      exact absurd hf (by simp)
    | some c =>
      rw [hc] at hf
      simp only [find] at hf
      have hcb : lookupChild cs b = some (Node.mk bmd bcs) := by
        rw [hc]
        exact congrArg some (by injection hf)
      have hl2 : lookupChild (insertChild b
          (Node.mk { bmd with hardlink_target := some tgt } bcs) cs) b
          = some (Node.mk { bmd with hardlink_target := some tgt } bcs) := by
        rw [lookup_insertChild]
        simp
      refine ⟨Node.mk md (insertChild b
          (Node.mk { bmd with hardlink_target := some tgt } bcs) cs), ?_, ?_, ?_⟩
      · rw [setHardlinkParts_nil_eq, hcb]
      · rw [List.nil_append, find_cons, hl2]
        rfl
      · intro q hq
        cases q with
        | nil =>
          rw [obs_nil_path, obs_nil_path]
          rfl
        | cons k qs =>
          by_cases hk : k = b
          · subst hk
            cases qs with
            | nil => exact absurd rfl hq
            | cons k2 qs2 =>
              rw [obs_cons_some md (k2 :: qs2) hl2, obs_cons_some md (k2 :: qs2) hcb]
              exact obs_children_only _ _ bcs k2 qs2
          · have hl3 : lookupChild (insertChild b
                (Node.mk { bmd with hardlink_target := some tgt } bcs) cs) k
                = lookupChild cs k := by
              rw [lookup_insertChild, if_neg hk]
            cases hck : lookupChild cs k with
            | none => rw [obs_cons_none md qs (by rw [hl3]; exact hck), obs_cons_none md qs hck]
            | some c0 => rw [obs_cons_some md qs (by rw [hl3]; exact hck), obs_cons_some md qs hck]
  | p :: rest, tgt, b, t, n, hf => by
    obtain ⟨md, cs⟩ := t
    rw [List.cons_append, find_cons] at hf
    cases hc : lookupChild cs p with
    | none =>
      rw [hc] at hf
      exact absurd hf (by simp)
    | some c =>
      rw [hc] at hf
      obtain ⟨c2, hs, hfind, hobs⟩ := setHardlinkParts_found rest tgt b c n hf
      have hl2 : lookupChild (insertChild p c2 cs) p = some c2 := by
        rw [lookup_insertChild]
        simp
      refine ⟨Node.mk md (insertChild p c2 cs), ?_, ?_, ?_⟩
      · rw [setHardlinkParts_cons_eq, hc]
        show (match setHardlinkParts tgt rest b c with
              | none => none
              | some c2 => some (Node.mk md (insertChild p c2 cs))) = _
        rw [hs]
      · rw [List.cons_append, find_cons, hl2]
        exact hfind
      · intro q hq
        cases q with
        | nil =>
          rw [obs_nil_path, obs_nil_path]
          rfl
        | cons k qs =>
          by_cases hk : k = p
          · subst hk
            rw [obs_cons_some md qs hl2, obs_cons_some md qs hc]
            refine hobs qs (fun hq2 => hq ?_)
            rw [List.cons_append, hq2]
          · have hl3 : lookupChild (insertChild p c2 cs) k = lookupChild cs k := by
              rw [lookup_insertChild, if_neg hk]
            cases hck : lookupChild cs k with
            | none => rw [obs_cons_none md qs (by rw [hl3]; exact hck), obs_cons_none md qs hck]
            | some c0 => rw [obs_cons_some md qs (by rw [hl3]; exact hck), obs_cons_some md qs hck]

/-- C8: applying a hard-link tar entry always leaves a File node at the
normalized path — with the raw link target attached as display metadata when
present — for every starting tree.  In the model `apply_entry` is total: the
`set_hardlink_target` failure case (`none`) falls back to the `put_file`
result via `getD`, mirroring the warning-only `if let Err` branch in
`archive.rs`, so an attachment failure never escapes the merge loop. -/
theorem hard_link_leaves_file_node :
    ∀ (h : Option Key) (t : Node) (e : TarEntry),
      e.etype = EType.link →
      normalizeEntryPath e.path ≠ [] →
      is_whiteout (normalizeEntryPath e.path) = false →
      find (apply_entry h t e)
          (filterParts (split_path (normalizeEntryPath e.path)).1
            ++ [(split_path (normalizeEntryPath e.path)).2])
        = some (Node.mk { fileMeta e.mode e.uid e.gid with
            hardlink_target := e.link_name, layer_hash := h } Children.nil) := by
  intro h t e het hne hw
  rw [apply_entry_link h t e hne hw het]
  cases hln : e.link_name with
  | none =>
    exact find_put_file t (normalizeEntryPath e.path) e.mode e.uid e.gid false none h
  | some tgt =>
    have hf := find_put_file t (normalizeEntryPath e.path) e.mode e.uid e.gid false none h
    obtain ⟨t2, hs, hfind, _⟩ := setHardlinkParts_found
      (filterParts (split_path (normalizeEntryPath e.path)).1) tgt
      (split_path (normalizeEntryPath e.path)).2
      (t.put_file (normalizeEntryPath e.path) e.mode e.uid e.gid false none h) _ hf
    show find (((t.put_file (normalizeEntryPath e.path) e.mode e.uid e.gid false none
        h).set_hardlink_target (normalizeEntryPath e.path) tgt).getD
        (t.put_file (normalizeEntryPath e.path) e.mode e.uid e.gid false none h))
        (filterParts (split_path (normalizeEntryPath e.path)).1
          ++ [(split_path (normalizeEntryPath e.path)).2]) = _
    rw [show (t.put_file (normalizeEntryPath e.path) e.mode e.uid e.gid false none
        h).set_hardlink_target (normalizeEntryPath e.path) tgt = some t2 from hs]
    exact hfind

/-- Witness for C8: a hard-link entry at "d/f" with target "tgt". -/
theorem hard_link_leaves_file_node_witness :
    find (apply_entry none root0 ⟨"d/f".data, .link, 0o644, 7, 8, some ("tgt".data)⟩)
        (filterParts (split_path (normalizeEntryPath
            (TarEntry.mk ("d/f".data) .link 0o644 7 8 (some ("tgt".data))).path)).1
          ++ [(split_path (normalizeEntryPath
            (TarEntry.mk ("d/f".data) .link 0o644 7 8 (some ("tgt".data))).path)).2])
      = some (Node.mk { fileMeta 0o644 7 8 with
          hardlink_target := some ("tgt".data), layer_hash := none } Children.nil) :=
  hard_link_leaves_file_node none root0 ⟨"d/f".data, .link, 0o644, 7, 8, some ("tgt".data)⟩
    rfl (by decide) (by decide)

/-- C2: a Regular or Symlink content entry wholesale-replaces the node at its
normalized path with a fresh File node carrying exactly this entry's kind,
mode, uid and gid and no children (pruning any prior subtree, in particular
on a directory-to-file transition); and the concrete two-layer run [L1
creating directory "x" with "x/y"; L2 with a regular-file entry at "x"]
yields "x" as a file with zero children. -/
theorem last_content_entry_wins :
    ∀ (h : Option Key) (t : Node) (e : TarEntry),
      normalizeEntryPath e.path ≠ [] →
      is_whiteout (normalizeEntryPath e.path) = false →
      ((e.etype = EType.regular →
        find (apply_entry h t e)
            (filterParts (split_path (normalizeEntryPath e.path)).1
              ++ [(split_path (normalizeEntryPath e.path)).2])
          = some (Node.mk { fileMeta e.mode e.uid e.gid with layer_hash := h } Children.nil))
      ∧ (e.etype = EType.symlink →
        find (apply_entry h t e)
            (filterParts (split_path (normalizeEntryPath e.path)).1
              ++ [(split_path (normalizeEntryPath e.path)).2])
          = some (Node.mk { fileMeta e.mode e.uid e.gid with
              is_symlink := true, symlink_target := e.link_name, layer_hash := h }
              Children.nil))
      ∧ find (run_layers [(none, [⟨"x".data, .directory, 0o755, 0, 0, none⟩,
            ⟨"x/y".data, .regular, 0o644, 0, 0, none⟩]),
            (none, [⟨"x".data, .regular, 0o600, 0, 0, none⟩])] root0) [("x".data)]
          = some (Node.mk { fileMeta 0o600 0 0 with layer_hash := none } Children.nil)) := by
  intro h t e hne hw
  refine ⟨?_, ?_, by decide⟩
  · intro het
    rw [apply_entry_regular h t e hne hw het]
    exact find_put_file t (normalizeEntryPath e.path) e.mode e.uid e.gid false none h
  · intro het
    rw [apply_entry_symlink h t e hne hw het]
    exact find_put_file t (normalizeEntryPath e.path) e.mode e.uid e.gid true e.link_name h

/-- Witness for C2: a regular-file entry at "x/y" applied to the empty root. -/
theorem last_content_entry_wins_witness :
    find (apply_entry none root0 ⟨"x/y".data, .regular, 0o640, 5, 6, none⟩)
        (filterParts (split_path (normalizeEntryPath
            (TarEntry.mk ("x/y".data) .regular 0o640 5 6 none).path)).1
          ++ [(split_path (normalizeEntryPath
            (TarEntry.mk ("x/y".data) .regular 0o640 5 6 none).path)).2])
      = some (Node.mk { fileMeta 0o640 5 6 with layer_hash := none } Children.nil) :=
  (last_content_entry_wins none root0 ⟨"x/y".data, .regular, 0o640, 5, 6, none⟩
    (by decide) (by decide)).1 rfl

end Contree

namespace Contree

/-- The per-path action of one tar entry at one fixed path: identity, a
constant (creation at exactly this path, or deletion of this path), or
"stamp": keep the metadata if present (overwriting the layer tag), create
with a default otherwise. -/
inductive PP where
  | pid : PP
  | pconst : Option NodeMetadata → PP
  | pstamp : NodeMetadata → PP
deriving DecidableEq

def evalPP (h : Option Key) : PP → Option NodeMetadata → Option NodeMetadata
  | .pid, x => x
  | .pconst v, _ => v
  | .pstamp f, x => some (restampMeta h (x.getD f))

/-- Per-path action of a `put_file` call (Regular, Symlink and Link entries),
with the already-assembled leaf metadata. -/
def filePP (fm : NodeMetadata) (np : Key) (q : List Key) : PP :=
  if q = filterParts (split_path np).1 ++ [(split_path np).2] then .pconst (some fm)
  else if pfx (filterParts (split_path np).1 ++ [(split_path np).2]) q = true then .pconst none
  else if q ≠ [] ∧ pfx q (filterParts (split_path np).1) = true then .pstamp (dirMeta 0o755 0 0)
  else .pid

/-- The per-path action of `apply_entry` at path `q`, read off the branches
of the source. -/
def entryPP (h : Option Key) (e : TarEntry) (q : List Key) : PP :=
  let np := normalizeEntryPath e.path
  if np = [] then .pid
  else if is_whiteout np then
    if is_opaque np then
      if pfx (filterParts (opaque_dir np)) q = true ∧ q ≠ filterParts (opaque_dir np)
        then .pconst none else .pid
    else
      if pfx (filterParts (split_path (whiteout_target np)).1
          ++ [(split_path (whiteout_target np)).2]) q = true then .pconst none else .pid
  else
    match e.etype with
    | .directory =>
      if q ≠ [] ∧ pfx q (filterParts np) = true
        then .pstamp (dirMeta e.mode e.uid e.gid) else .pid
    | .regular => filePP { fileMeta e.mode e.uid e.gid with layer_hash := h } np q
    | .symlink => filePP { fileMeta e.mode e.uid e.gid with
        is_symlink := true, symlink_target := e.link_name, layer_hash := h } np q
    | .link => filePP { fileMeta e.mode e.uid e.gid with
        hardlink_target := e.link_name, layer_hash := h } np q
    | .other => .pid

theorem entryPP_skip (h : Option Key) (e : TarEntry) (q : List Key)
    (hne : normalizeEntryPath e.path = []) : entryPP h e q = .pid := by
  simp [entryPP, hne]

theorem entryPP_opaque (h : Option Key) (e : TarEntry) (q : List Key)
    (hop : is_opaque (normalizeEntryPath e.path) = true) :
    entryPP h e q
      = if pfx (filterParts (opaque_dir (normalizeEntryPath e.path))) q = true
           ∧ q ≠ filterParts (opaque_dir (normalizeEntryPath e.path))
        then .pconst none else .pid := by
  have hw := is_opaque_imp_is_whiteout _ hop
  have hne : ¬ normalizeEntryPath e.path = [] := by
    intro hnil
    rw [hnil] at hop
    exact absurd hop (by decide)
  simp [entryPP, hne, hw, hop]

theorem entryPP_whiteout (h : Option Key) (e : TarEntry) (q : List Key)
    (hw : is_whiteout (normalizeEntryPath e.path) = true)
    (hop : is_opaque (normalizeEntryPath e.path) = false) :
    entryPP h e q
      = if pfx (filterParts (split_path (whiteout_target (normalizeEntryPath e.path))).1
            ++ [(split_path (whiteout_target (normalizeEntryPath e.path))).2]) q = true
        then .pconst none else .pid := by
  have hne : ¬ normalizeEntryPath e.path = [] := by
    intro hnil
    rw [hnil] at hw
    exact absurd hw (by decide)
  simp [entryPP, hne, hw, hop]

theorem entryPP_content (h : Option Key) (e : TarEntry) (q : List Key)
    (hne : ¬ normalizeEntryPath e.path = [])
    (hw : is_whiteout (normalizeEntryPath e.path) = false) :
    entryPP h e q
      = match e.etype with
        | .directory =>
          if q ≠ [] ∧ pfx q (filterParts (normalizeEntryPath e.path)) = true
            then .pstamp (dirMeta e.mode e.uid e.gid) else .pid
        | .regular => filePP { fileMeta e.mode e.uid e.gid with layer_hash := h }
            (normalizeEntryPath e.path) q
        | .symlink => filePP { fileMeta e.mode e.uid e.gid with
            is_symlink := true, symlink_target := e.link_name, layer_hash := h }
            (normalizeEntryPath e.path) q
        | .link => filePP { fileMeta e.mode e.uid e.gid with
            hardlink_target := e.link_name, layer_hash := h } (normalizeEntryPath e.path) q
        | .other => .pid := by
  simp [entryPP, hne, hw]

/-- Bridging lemma: one merge step observed at any path equals the entry's
per-path action applied to the previous observation at that path. -/
theorem obs_apply_entry (h : Option Key) (t : Node) (e : TarEntry) (q : List Key) :
    obs (apply_entry h t e) q = evalPP h (entryPP h e q) (obs t q) := by
  by_cases hne : normalizeEntryPath e.path = []
  · rw [apply_entry_skip h t e hne, entryPP_skip h e q hne]
    rfl
  · by_cases hw : is_whiteout (normalizeEntryPath e.path) = true
    · by_cases hop : is_opaque (normalizeEntryPath e.path) = true
      · rw [apply_entry_opq_mark h t e hop, entryPP_opaque h e q hop]
        show obs (markOpaqueParts (filterParts (opaque_dir (normalizeEntryPath e.path))) t) q = _
        rw [obs_markOpaqueParts]
        by_cases hcond : pfx (filterParts (opaque_dir (normalizeEntryPath e.path))) q = true
            ∧ q ≠ filterParts (opaque_dir (normalizeEntryPath e.path))
        · rw [if_pos hcond, if_pos hcond]
          rfl
        · rw [if_neg hcond, if_neg hcond]
          rfl
      · have hop2 : is_opaque (normalizeEntryPath e.path) = false := by
          cases hx : is_opaque (normalizeEntryPath e.path) with
          | false => rfl
          | true => exact absurd hx hop
        rw [apply_entry_whiteout h t e hw hop2, entryPP_whiteout h e q hw hop2]
        show obs (removeParts
            (filterParts (split_path (whiteout_target (normalizeEntryPath e.path))).1)
            (split_path (whiteout_target (normalizeEntryPath e.path))).2 t) q = _
        rw [obs_removeParts]
        by_cases hcond : pfx (filterParts (split_path (whiteout_target
            (normalizeEntryPath e.path))).1
            ++ [(split_path (whiteout_target (normalizeEntryPath e.path))).2]) q = true
        · rw [if_pos hcond, if_pos hcond]
          rfl
        · rw [if_neg hcond, if_neg hcond]
          rfl
    · have hw2 : is_whiteout (normalizeEntryPath e.path) = false := by
        cases hx : is_whiteout (normalizeEntryPath e.path) with
        | false => rfl
        | true => exact absurd hx hw
      rw [entryPP_content h e q hne hw2]
      cases het : e.etype with
      | directory =>
        rw [apply_entry_dir h t e hne hw2 het]
        show obs (ensureParts e.mode e.uid e.gid h
            (filterParts (normalizeEntryPath e.path)) t) q = _
        rw [obs_ensureParts]
        by_cases hcond : q ≠ [] ∧ pfx q (filterParts (normalizeEntryPath e.path)) = true
        · rw [if_pos hcond, if_pos hcond]
          rfl
        · rw [if_neg hcond, if_neg hcond]
          rfl
      | regular =>
        rw [apply_entry_regular h t e hne hw2 het, obs_put_file]
        rw [show filePP { fileMeta e.mode e.uid e.gid with layer_hash := h }
            (normalizeEntryPath e.path) q
          = if q = filterParts (split_path (normalizeEntryPath e.path)).1
                ++ [(split_path (normalizeEntryPath e.path)).2]
              then .pconst (some { fileMeta e.mode e.uid e.gid with layer_hash := h })
            else if pfx (filterParts (split_path (normalizeEntryPath e.path)).1
                ++ [(split_path (normalizeEntryPath e.path)).2]) q = true then .pconst none
            else if q ≠ [] ∧ pfx q (filterParts (split_path (normalizeEntryPath e.path)).1) = true
              then .pstamp (dirMeta 0o755 0 0)
            else .pid from rfl]
        by_cases h1 : q = filterParts (split_path (normalizeEntryPath e.path)).1
            ++ [(split_path (normalizeEntryPath e.path)).2]
        · rw [if_pos h1, if_pos h1]
          rfl
        · rw [if_neg h1, if_neg h1]
          by_cases h2 : pfx (filterParts (split_path (normalizeEntryPath e.path)).1
              ++ [(split_path (normalizeEntryPath e.path)).2]) q = true
          · rw [if_pos h2, if_pos h2]
            rfl
          · rw [if_neg h2, if_neg h2]
            by_cases h3 : q ≠ []
                ∧ pfx q (filterParts (split_path (normalizeEntryPath e.path)).1) = true
            · rw [if_pos h3, if_pos h3]
              rfl
            · rw [if_neg h3, if_neg h3]
              rfl
      | symlink =>
        rw [apply_entry_symlink h t e hne hw2 het, obs_put_file]
        rw [show filePP { fileMeta e.mode e.uid e.gid with
              is_symlink := true, symlink_target := e.link_name, layer_hash := h }
            (normalizeEntryPath e.path) q
          = if q = filterParts (split_path (normalizeEntryPath e.path)).1
                ++ [(split_path (normalizeEntryPath e.path)).2]
              then .pconst (some { fileMeta e.mode e.uid e.gid with
                is_symlink := true, symlink_target := e.link_name, layer_hash := h })
            else if pfx (filterParts (split_path (normalizeEntryPath e.path)).1
                ++ [(split_path (normalizeEntryPath e.path)).2]) q = true then .pconst none
            else if q ≠ [] ∧ pfx q (filterParts (split_path (normalizeEntryPath e.path)).1) = true
              then .pstamp (dirMeta 0o755 0 0)
            else .pid from rfl]
        by_cases h1 : q = filterParts (split_path (normalizeEntryPath e.path)).1
            ++ [(split_path (normalizeEntryPath e.path)).2]
        · rw [if_pos h1, if_pos h1]
          rfl
        · rw [if_neg h1, if_neg h1]
          by_cases h2 : pfx (filterParts (split_path (normalizeEntryPath e.path)).1
              ++ [(split_path (normalizeEntryPath e.path)).2]) q = true
          · rw [if_pos h2, if_pos h2]
            rfl
          · rw [if_neg h2, if_neg h2]
            by_cases h3 : q ≠ []
                ∧ pfx q (filterParts (split_path (normalizeEntryPath e.path)).1) = true
            · rw [if_pos h3, if_pos h3]
              rfl
            · rw [if_neg h3, if_neg h3]
              rfl
      | other =>
        rw [apply_entry_other h t e hne hw2 het]
        rfl
      | link =>
        rw [apply_entry_link h t e hne hw2 het]
        cases hln : e.link_name with
        | none =>
          rw [obs_put_file]
          rw [show filePP { fileMeta e.mode e.uid e.gid with
                hardlink_target := none, layer_hash := h }
              (normalizeEntryPath e.path) q
            = if q = filterParts (split_path (normalizeEntryPath e.path)).1
                  ++ [(split_path (normalizeEntryPath e.path)).2]
                then .pconst (some { fileMeta e.mode e.uid e.gid with
                  hardlink_target := none, layer_hash := h })
              else if pfx (filterParts (split_path (normalizeEntryPath e.path)).1
                  ++ [(split_path (normalizeEntryPath e.path)).2]) q = true then .pconst none
              else if q ≠ []
                  ∧ pfx q (filterParts (split_path (normalizeEntryPath e.path)).1) = true
                then .pstamp (dirMeta 0o755 0 0)
              else .pid from rfl]
          by_cases h1 : q = filterParts (split_path (normalizeEntryPath e.path)).1
              ++ [(split_path (normalizeEntryPath e.path)).2]
          · rw [if_pos h1, if_pos h1]
            rfl
          · rw [if_neg h1, if_neg h1]
            by_cases h2 : pfx (filterParts (split_path (normalizeEntryPath e.path)).1
                ++ [(split_path (normalizeEntryPath e.path)).2]) q = true
            · rw [if_pos h2, if_pos h2]
              rfl
            · rw [if_neg h2, if_neg h2]
              by_cases h3 : q ≠ []
                  ∧ pfx q (filterParts (split_path (normalizeEntryPath e.path)).1) = true
              · rw [if_pos h3, if_pos h3]
                rfl
              · rw [if_neg h3, if_neg h3]
                rfl
        | some tgt =>
          have hf := find_put_file t (normalizeEntryPath e.path) e.mode e.uid e.gid false none h
          obtain ⟨t2, hs, hfind, hobs⟩ := setHardlinkParts_found
            (filterParts (split_path (normalizeEntryPath e.path)).1) tgt
            (split_path (normalizeEntryPath e.path)).2
            (t.put_file (normalizeEntryPath e.path) e.mode e.uid e.gid false none h) _ hf
          show obs (((t.put_file (normalizeEntryPath e.path) e.mode e.uid e.gid false none
              h).set_hardlink_target (normalizeEntryPath e.path) tgt).getD
              (t.put_file (normalizeEntryPath e.path) e.mode e.uid e.gid false none h)) q = _
          rw [show (t.put_file (normalizeEntryPath e.path) e.mode e.uid e.gid false none
              h).set_hardlink_target (normalizeEntryPath e.path) tgt = some t2 from hs]
          show obs t2 q = _
          rw [show filePP { fileMeta e.mode e.uid e.gid with
                hardlink_target := some tgt, layer_hash := h }
              (normalizeEntryPath e.path) q
            = if q = filterParts (split_path (normalizeEntryPath e.path)).1
                  ++ [(split_path (normalizeEntryPath e.path)).2]
                then .pconst (some { fileMeta e.mode e.uid e.gid with
                  hardlink_target := some tgt, layer_hash := h })
              else if pfx (filterParts (split_path (normalizeEntryPath e.path)).1
                  ++ [(split_path (normalizeEntryPath e.path)).2]) q = true then .pconst none
              else if q ≠ []
                  ∧ pfx q (filterParts (split_path (normalizeEntryPath e.path)).1) = true
                then .pstamp (dirMeta 0o755 0 0)
              else .pid from rfl]
          by_cases h1 : q = filterParts (split_path (normalizeEntryPath e.path)).1
              ++ [(split_path (normalizeEntryPath e.path)).2]
          · rw [if_pos h1]
            subst h1
            unfold obs
            rw [hfind]
            rfl
          · rw [if_neg h1, hobs q h1, obs_put_file]
            rw [if_neg h1]
            by_cases h2 : pfx (filterParts (split_path (normalizeEntryPath e.path)).1
                ++ [(split_path (normalizeEntryPath e.path)).2]) q = true
            · rw [if_pos h2, if_pos h2]
              rfl
            · rw [if_neg h2, if_neg h2]
              by_cases h3 : q ≠ []
                  ∧ pfx q (filterParts (split_path (normalizeEntryPath e.path)).1) = true
              · rw [if_pos h3, if_pos h3]
                rfl
              · rw [if_neg h3, if_neg h3]
                rfl

end Contree

namespace Contree

/-- Observation of a whole layer fold: the per-entry actions fold over the
starting observation. -/
theorem obs_process_layer (h : Option Key) (L : List TarEntry) :
    ∀ (t : Node) (q : List Key),
      obs (process_layer_entries h t L) q
        = L.foldl (fun x e => evalPP h (entryPP h e q) x) (obs t q) := by
  induction L with
  | nil =>
    intro t q
    rfl
  | cons e L2 ih =>
    intro t q
    show obs (process_layer_entries h (apply_entry h t e) L2) q = _
    rw [ih, obs_apply_entry, List.foldl_cons]

/-- Runs started from states agreeing at a path keep agreeing at it. -/
theorem obs_run_layers_congr : ∀ (A : List Layer) (t1 t2 : Node) (q : List Key),
    obs t1 q = obs t2 q → obs (run_layers A t1) q = obs (run_layers A t2) q
  | [], _, _, _, hx => hx
  | X :: A, t1, t2, q, hx => by
    have h1 : obs (process_layer_entries X.1 t1 X.2) q
        = obs (process_layer_entries X.1 t2 X.2) q := by
      rw [obs_process_layer, obs_process_layer, hx]
    exact obs_run_layers_congr A _ _ q h1

theorem run_layers_append (B C : List Layer) (t : Node) :
    run_layers (B ++ C) t = run_layers C (run_layers B t) := by
  unfold run_layers
  rw [List.foldl_append]

theorem obs_root0_ne (q : List Key) (hq : q ≠ []) : obs root0 q = none := by
  cases q with
  | nil => exact absurd rfl hq
  | cons k qs =>
    show obs (Node.mk (dirMeta 0o755 0 0) Children.nil) (k :: qs) = none
    exact obs_cons_none (dirMeta 0o755 0 0) qs rfl

/-- Right after an opaque-marker entry applies, every strict descendant of
the marked directory observes `none`. -/
theorem obs_after_opaque (h : Option Key) (t : Node) (e : TarEntry)
    (hop : is_opaque (normalizeEntryPath e.path) = true) (k : Key) (ks : List Key) :
    obs (apply_entry h t e)
      (filterParts (opaque_dir (normalizeEntryPath e.path)) ++ k :: ks) = none := by
  rw [apply_entry_opq_mark h t e hop]
  show obs (markOpaqueParts (filterParts (opaque_dir (normalizeEntryPath e.path))) t) _ = none
  rw [obs_markOpaqueParts]
  refine if_pos ⟨pfx_self_append _ _, ?_⟩
  intro hh
  have hlen := congrArg List.length hh
  simp at hlen

/-- C1: in any run whose layer sequence is B ++ [L] ++ A where L splits as
L1 ++ [opaque marker for directory d] ++ L2, every strict descendant of d in
the final tree observes exactly what it observes in the run that folds only
the post-marker entries L2 and the later layers A from an empty root.  So
nothing below d contributed solely by earlier layers (B, or L's pre-marker
entries) survives, while contributions of L2 and later layers are applied
independently — present unless a later entry deletes or overwrites them. -/
theorem opaque_marker_resets_prior_layers :
    ∀ (B A : List Layer) (h : Option Key) (L1 L2 : List TarEntry) (e : TarEntry)
      (k : Key) (ks : List Key),
      is_opaque (normalizeEntryPath e.path) = true →
      obs (run_layers (B ++ (h, L1 ++ e :: L2) :: A) root0)
          (filterParts (opaque_dir (normalizeEntryPath e.path)) ++ k :: ks)
        = obs (run_layers ((h, L2) :: A) root0)
          (filterParts (opaque_dir (normalizeEntryPath e.path)) ++ k :: ks) := by
  intro B A h L1 L2 e k ks hop
  have hq : (filterParts (opaque_dir (normalizeEntryPath e.path)) ++ k :: ks) ≠ [] := by simp
  rw [run_layers_append]
  show obs (run_layers A (process_layer_entries h (run_layers B root0) (L1 ++ e :: L2))) _
      = obs (run_layers A (process_layer_entries h root0 L2)) _
  have hsplit : process_layer_entries h (run_layers B root0) (L1 ++ e :: L2)
      = process_layer_entries h
          (apply_entry h (process_layer_entries h (run_layers B root0) L1) e) L2 := by
    unfold process_layer_entries
    rw [List.foldl_append, List.foldl_cons]
  rw [hsplit]
  apply obs_run_layers_congr
  rw [obs_process_layer, obs_process_layer,
    obs_after_opaque h _ e hop k ks, obs_root0_ne _ hq]

/-- Witness for C1: layer 1 creates "d/old", layer 2 is the opaque marker
"d/.wh..wh..opq"; below "d" the run observes what an empty run observes. -/
theorem opaque_marker_resets_prior_layers_witness :
    obs (run_layers ([(none, [⟨"d/old".data, .regular, 0o644, 0, 0, none⟩])]
          ++ (none, [] ++ ⟨"d/.wh..wh..opq".data, .regular, 0, 0, 0, none⟩
            :: ([] : List TarEntry)) :: ([] : List Layer)) root0)
        (filterParts (opaque_dir (normalizeEntryPath
          (TarEntry.mk ("d/.wh..wh..opq".data) .regular 0 0 0 none).path)) ++ ("old".data) :: [])
      = obs (run_layers ((none, ([] : List TarEntry)) :: ([] : List Layer)) root0)
        (filterParts (opaque_dir (normalizeEntryPath
          (TarEntry.mk ("d/.wh..wh..opq".data) .regular 0 0 0 none).path)) ++ ("old".data) :: []) :=
  opaque_marker_resets_prior_layers [(none, [⟨"d/old".data, .regular, 0o644, 0, 0, none⟩])]
    [] none [] [] ⟨"d/.wh..wh..opq".data, .regular, 0, 0, 0, none⟩ ("old".data) [] (by decide)

/-- C6 amended: below the target of a plain whiteout entry, the final tree
observes exactly what the run folding only the post-whiteout entries and the
later layers from an empty root observes.  In particular a path deleted by
the whiteout after being populated by an earlier layer is absent from the
final tree unless some later entry re-creates it. -/
theorem whiteout_resets_prior_layers :
    ∀ (B A : List Layer) (h : Option Key) (L1 L2 : List TarEntry) (e : TarEntry) (q : List Key),
      is_whiteout (normalizeEntryPath e.path) = true →
      is_opaque (normalizeEntryPath e.path) = false →
      pfx (filterParts (split_path (whiteout_target (normalizeEntryPath e.path))).1
          ++ [(split_path (whiteout_target (normalizeEntryPath e.path))).2]) q = true →
      obs (run_layers (B ++ (h, L1 ++ e :: L2) :: A) root0) q
        = obs (run_layers ((h, L2) :: A) root0) q := by
  intro B A h L1 L2 e q hw hop hpfx
  have hq : q ≠ [] := by
    intro hqq
    subst hqq
    have h2 := (pfx_nil_iff _).mp hpfx
    simp at h2
  rw [run_layers_append]
  show obs (run_layers A (process_layer_entries h (run_layers B root0) (L1 ++ e :: L2))) _
      = obs (run_layers A (process_layer_entries h root0 L2)) _
  have hsplit : process_layer_entries h (run_layers B root0) (L1 ++ e :: L2)
      = process_layer_entries h
          (apply_entry h (process_layer_entries h (run_layers B root0) L1) e) L2 := by
    unfold process_layer_entries
    rw [List.foldl_append, List.foldl_cons]
  rw [hsplit]
  apply obs_run_layers_congr
  have hdel : obs (apply_entry h (process_layer_entries h (run_layers B root0) L1) e) q
      = none := by
    rw [apply_entry_whiteout h _ e hw hop]
    show obs (removeParts
        (filterParts (split_path (whiteout_target (normalizeEntryPath e.path))).1)
        (split_path (whiteout_target (normalizeEntryPath e.path))).2 _) q = none
    rw [obs_removeParts]
    exact if_pos hpfx
  rw [obs_process_layer, obs_process_layer, hdel, obs_root0_ne _ hq]

/-- Witness for C6's amended theorem: layer 1 creates "a", layer 2 whites it
out; at "a" the run agrees with the empty run (so "a" is absent). -/
theorem whiteout_resets_prior_layers_witness :
    obs (run_layers ([(none, [⟨"a".data, .regular, 0o644, 0, 0, none⟩])]
          ++ (none, [] ++ ⟨".wh.a".data, .regular, 0, 0, 0, none⟩
            :: ([] : List TarEntry)) :: ([] : List Layer)) root0) [("a".data)]
      = obs (run_layers ((none, ([] : List TarEntry)) :: ([] : List Layer)) root0) [("a".data)] :=
  whiteout_resets_prior_layers [(none, [⟨"a".data, .regular, 0o644, 0, 0, none⟩])]
    [] none [] [] ⟨".wh.a".data, .regular, 0, 0, 0, none⟩ [("a".data)]
    (by decide) (by decide) (by decide)

end Contree

namespace Contree

theorem find_cons_some {cs : Children} {k : Key} {c : Node} (md : NodeMetadata) (qs : List Key)
    (hc : lookupChild cs k = some c) : find (Node.mk md cs) (k :: qs) = find c qs := by
  rw [find_cons, hc]

theorem find_cons_none {cs : Children} {k : Key} (md : NodeMetadata) (qs : List Key)
    (hc : lookupChild cs k = none) : find (Node.mk md cs) (k :: qs) = none := by
  rw [find_cons, hc]

theorem find_nil (t : Node) : find t [] = some t := by
  cases t
  rfl

theorem find_restamp_cons (h : Option Key) (c : Node) (k : Key) (qs : List Key) :
    find (restampNode h c) (k :: qs) = find c (k :: qs) := by
  cases c
  rfl

/-- The node `ensure_path` leaves at its final component: the prior node with
only the layer tag overwritten (children, kind, mode, uid, gid all kept), or
a fresh tagged directory with this entry's mode/uid/gid when absent. -/
theorem find_ensureParts_self : ∀ (ps : List Key), ps ≠ [] →
    ∀ (m u g : Nat) (h : Option Key) (t : Node),
    find (ensureParts m u g h ps t) ps
      = some (restampNode h ((find t ps).getD (new_dir m u g)))
  | [], hne, _, _, _, _, _ => absurd rfl hne
  | [p], _, m, u, g, h, t => by
    obtain ⟨md, cs⟩ := t
    have hl : lookupChild (insertChild p (restampNode h ((lookupChild cs p).getD
        (new_dir m u g))) cs) p
        = some (restampNode h ((lookupChild cs p).getD (new_dir m u g))) := by
      rw [lookup_insertChild]
      simp
    have hlhs : find (ensureParts m u g h [p] (Node.mk md cs)) [p]
        = some (restampNode h ((lookupChild cs p).getD (new_dir m u g))) := by
      show find (Node.mk md (insertChild p (restampNode h ((lookupChild cs p).getD
          (new_dir m u g))) cs)) [p] = _
      rw [find_cons_some md [] hl, find_nil]
    rw [hlhs]
    cases hc : lookupChild cs p with
    | none => rw [find_cons_none md [] hc]
    | some c0 =>
      rw [find_cons_some md [] hc, find_nil]
  | p :: p2 :: ps2, _, m, u, g, h, t => by
    obtain ⟨md, cs⟩ := t
    have ih := find_ensureParts_self (p2 :: ps2) (by simp) m u g h
    have hl : lookupChild (insertChild p (ensureParts m u g h (p2 :: ps2)
        (restampNode h ((lookupChild cs p).getD (new_dir m u g)))) cs) p
        = some (ensureParts m u g h (p2 :: ps2)
            (restampNode h ((lookupChild cs p).getD (new_dir m u g)))) := by
      rw [lookup_insertChild]
      simp
    show find (Node.mk md (insertChild p (ensureParts m u g h (p2 :: ps2)
        (restampNode h ((lookupChild cs p).getD (new_dir m u g)))) cs)) (p :: p2 :: ps2) = _
    rw [find_cons_some md (p2 :: ps2) hl, ih, find_restamp_cons]
    cases hc : lookupChild cs p with
    | none =>
      rw [find_cons_none md (p2 :: ps2) hc]
      rfl
    | some c0 =>
      rw [find_cons_some md (p2 :: ps2) hc]
      rfl

/-- `ensure_path` leaves every path that is not a non-empty prefix of its
component list completely untouched (whole subtrees, not just metadata). -/
theorem find_ensureParts_other : ∀ (ps : List Key) (m u g : Nat) (h : Option Key) (t : Node)
    (q : List Key), q ≠ [] → pfx q ps = false →
    find (ensureParts m u g h ps t) q = find t q
  | [], _, _, _, _, _, _, _, _ => rfl
  | p :: rest, m, u, g, h, t, q, hq, hp => by
    obtain ⟨md, cs⟩ := t
    show find (Node.mk md (insertChild p (ensureParts m u g h rest
        (restampNode h ((lookupChild cs p).getD (new_dir m u g)))) cs)) q = _
    cases q with
    | nil => exact absurd rfl hq
    | cons k qs =>
      by_cases hk : k = p
      · subst hk
        have hpq : pfx qs rest = false := by simpa [pfx] using hp
        have hqs : qs ≠ [] := by
          intro hqq
          subst hqq
          simp [pfx] at hp
        have hl : lookupChild (insertChild k (ensureParts m u g h rest
            (restampNode h ((lookupChild cs k).getD (new_dir m u g)))) cs) k
            = some (ensureParts m u g h rest
                (restampNode h ((lookupChild cs k).getD (new_dir m u g)))) := by
          rw [lookup_insertChild]
          simp
        rw [find_cons_some md qs hl, find_ensureParts_other rest m u g h _ qs hqs hpq]
        cases qs with
        | nil => exact absurd rfl hqs
        | cons k2 qs2 =>
          rw [find_restamp_cons]
          cases hc : lookupChild cs k with
          | none =>
            rw [find_cons_none md (k2 :: qs2) hc]
            rfl
          | some c0 =>
            rw [find_cons_some md (k2 :: qs2) hc]
            rfl
      · have hl : lookupChild (insertChild p (ensureParts m u g h rest
            (restampNode h ((lookupChild cs p).getD (new_dir m u g)))) cs) k
            = lookupChild cs k := by
          rw [lookup_insertChild, if_neg hk]
        cases hc : lookupChild cs k with
        | none => rw [find_cons_none md qs (by rw [hl]; exact hc), find_cons_none md qs hc]
        | some c0 => rw [find_cons_some md qs (by rw [hl]; exact hc), find_cons_some md qs hc]

/-- C3 amended: a Directory entry ensures every component of its (filtered)
path exists, creating missing components — intermediates and leaf alike — as
directories with this entry's mode/uid/gid; an already-existing component
(the leaf included) keeps its children AND its mode/uid/gid, and only its
layer tag is overwritten — the tag being overwritten on every traversed
component, not only the leaf; every other path is untouched. -/
theorem directory_entry_ensure_respec :
    ∀ (h : Option Key) (t : Node) (e : TarEntry),
      e.etype = EType.directory →
      normalizeEntryPath e.path ≠ [] →
      is_whiteout (normalizeEntryPath e.path) = false →
      ((filterParts (normalizeEntryPath e.path) ≠ [] →
        find (apply_entry h t e) (filterParts (normalizeEntryPath e.path))
          = some (restampNode h ((find t (filterParts (normalizeEntryPath e.path))).getD
              (new_dir e.mode e.uid e.gid))))
      ∧ (∀ q, q ≠ [] → pfx q (filterParts (normalizeEntryPath e.path)) = true →
          obs (apply_entry h t e) q
            = some (restampMeta h ((obs t q).getD (dirMeta e.mode e.uid e.gid))))
      ∧ (∀ q, q ≠ [] → pfx q (filterParts (normalizeEntryPath e.path)) = false →
          find (apply_entry h t e) q = find t q)) := by
  intro h t e het hne hw
  rw [apply_entry_dir h t e hne hw het]
  refine ⟨?_, ?_, ?_⟩
  · intro hps
    exact find_ensureParts_self _ hps e.mode e.uid e.gid h t
  · intro q hq hp
    show obs (ensureParts e.mode e.uid e.gid h
        (filterParts (normalizeEntryPath e.path)) t) q = _
    rw [obs_ensureParts, if_pos ⟨hq, hp⟩]
  · intro q hq hp
    exact find_ensureParts_other _ e.mode e.uid e.gid h t q hq hp

/-- Witness for C3's amended theorem: re-applying a directory entry at "a"
with different metadata keeps the existing node, retagged only. -/
theorem directory_entry_ensure_respec_witness :
    find (apply_entry none (apply_entry none root0 ⟨"a".data, .directory, 0o700, 1, 1, none⟩)
        ⟨"a".data, .directory, 0o755, 2, 3, none⟩)
        (filterParts (normalizeEntryPath
          (TarEntry.mk ("a".data) .directory 0o755 2 3 none).path))
      = some (restampNode none
          ((find (apply_entry none root0 ⟨"a".data, .directory, 0o700, 1, 1, none⟩)
            (filterParts (normalizeEntryPath
              (TarEntry.mk ("a".data) .directory 0o755 2 3 none).path))).getD
            (new_dir 0o755 2 3))) :=
  (directory_entry_ensure_respec none
    (apply_entry none root0 ⟨"a".data, .directory, 0o700, 1, 1, none⟩)
    ⟨"a".data, .directory, 0o755, 2, 3, none⟩ rfl (by decide) (by decide)).1 (by decide)

end Contree

namespace Contree

/-- Iterated "./" prefixes, for stating what `trim_start_matches` removes. -/
def dotSlashPre : Nat → Key → Key
  | 0, l => l
  | j + 1, l => '.' :: '/' :: dotSlashPre j l

/-- `trimDotSlash` removes exactly some number of leading "./" copies, and
its result no longer starts with "./". -/
theorem trimDotSlash_spec : ∀ p : Key,
    (∃ j, p = dotSlashPre j (trimDotSlash p)) ∧ ∀ rest, trimDotSlash p ≠ '.' :: '/' :: rest
  | [] => ⟨⟨0, rfl⟩, by intro rest; simp [trimDotSlash]⟩
  | [c] => ⟨⟨0, by simp [trimDotSlash, dotSlashPre]⟩, by intro rest; simp [trimDotSlash]⟩
  | c1 :: c2 :: rs => by
    by_cases h1 : c1 = '.'
    · subst h1
      by_cases h2 : c2 = '/'
      · subst h2
        obtain ⟨⟨j, hj⟩, hnp⟩ := trimDotSlash_spec rs
        have he : trimDotSlash ('.' :: '/' :: rs) = trimDotSlash rs := rfl
        constructor
        · refine ⟨j + 1, ?_⟩
          rw [he]
          show _ = '.' :: '/' :: dotSlashPre j (trimDotSlash rs)
          rw [← hj]
        · intro rest
          rw [he]
          exact hnp rest
      · constructor
        · refine ⟨0, ?_⟩
          simp [trimDotSlash, h2, dotSlashPre]
        · intro rest
          simp [trimDotSlash, h2]
    · constructor
      · refine ⟨0, ?_⟩
        simp [trimDotSlash, h1, dotSlashPre]
      · intro rest
        simp [trimDotSlash, h1]

theorem takeWhile_append_dropWhile' {α : Type} (f : α → Bool) :
    ∀ l : List α, l.takeWhile f ++ l.dropWhile f = l
  | [] => rfl
  | b :: bs => by
    by_cases hf : f b = true
    · simp [List.takeWhile, List.dropWhile, hf, takeWhile_append_dropWhile' f bs]
    · simp [List.takeWhile, List.dropWhile, hf]

theorem dropWhile_head_not {α : Type} (f : α → Bool) :
    ∀ (l : List α) (a : α) (r : List α), l.dropWhile f = a :: r → f a = false
  | [], a, r => by simp [List.dropWhile]
  | b :: bs, a, r => by
    by_cases hf : f b = true
    · intro hh
      rw [show (b :: bs).dropWhile f = bs.dropWhile f from by simp [List.dropWhile, hf]] at hh
      exact dropWhile_head_not f bs a r hh
    · intro hh
      rw [show (b :: bs).dropWhile f = b :: bs from by simp [List.dropWhile, hf]] at hh
      have hb : b = a := by injection hh
      simp at hf
      rw [← hb]
      exact hf

theorem takeWhile_mem_true {α : Type} (f : α → Bool) :
    ∀ (l : List α) (a : α), a ∈ l.takeWhile f → f a = true
  | [], a => by simp [List.takeWhile]
  | b :: bs, a => by
    by_cases hf : f b = true
    · intro ha
      rw [show (b :: bs).takeWhile f = b :: bs.takeWhile f from by
        simp [List.takeWhile, hf]] at ha
      rcases List.mem_cons.mp ha with hab | hmem
      · rw [hab]
        exact hf
      · exact takeWhile_mem_true f bs a hmem
    · intro ha
      rw [show (b :: bs).takeWhile f = [] from by simp [List.takeWhile, hf]] at ha
      simp at ha

/-- `trimEndSlashes` removes exactly some number of trailing slashes, and its
result no longer ends with a slash. -/
theorem trimEndSlashes_spec (p : Key) :
    (∃ k2, p = trimEndSlashes p ++ List.replicate k2 '/')
    ∧ ∀ r, trimEndSlashes p ≠ r ++ ['/'] := by
  constructor
  · refine ⟨(p.reverse.takeWhile (fun c => c == '/')).length, ?_⟩
    have hsplit := takeWhile_append_dropWhile' (fun c => c == '/') p.reverse
    have htw : p.reverse.takeWhile (fun c => c == '/')
        = List.replicate (p.reverse.takeWhile (fun c => c == '/')).length '/' := by
      apply List.eq_replicate_of_mem
      intro b hb
      have hb2 := takeWhile_mem_true (fun c => c == '/') p.reverse b hb
      simpa using hb2
    conv_lhs => rw [← List.reverse_reverse p, ← hsplit]
    rw [List.reverse_append]
    unfold trimEndSlashes
    rw [htw, List.reverse_replicate]
    rw [List.length_replicate]
  · intro r hr
    have h3 := congrArg List.reverse hr
    rw [show (trimEndSlashes p).reverse = p.reverse.dropWhile (fun c => c == '/') from by
      unfold trimEndSlashes; rw [List.reverse_reverse]] at h3
    rw [List.reverse_append] at h3
    simp at h3
    have h4 := dropWhile_head_not (fun c => c == '/') p.reverse '/' r.reverse h3
    simp at h4

/-- C4 amended: path normalization removes EVERY leading "./" repetition and
EVERY trailing slash (not one of each); an entry is skipped when the
normalized path is empty; a normalized path "." is NOT skipped: a Directory
entry at "." happens to leave the tree unchanged (its filtered component
list is empty), but a Regular entry at "." inserts a child literally named
"." into the root. -/
theorem normalize_entry_path_respec :
    ∀ (p : Key) (h : Option Key) (t : Node) (e : TarEntry),
      (∃ j, p = dotSlashPre j (trimDotSlash p))
      ∧ (∀ rest, trimDotSlash p ≠ '.' :: '/' :: rest)
      ∧ (∃ k2, trimDotSlash p = normalizeEntryPath p ++ List.replicate k2 '/')
      ∧ (∀ r, normalizeEntryPath p ≠ r ++ ['/'])
      ∧ (normalizeEntryPath e.path = [] → apply_entry h t e = t)
      ∧ (normalizeEntryPath e.path = ['.'] → e.etype = EType.directory → apply_entry h t e = t)
      ∧ (normalizeEntryPath e.path = ['.'] → e.etype = EType.regular →
          (find (apply_entry h t e) [(['.'] : Key)]).isSome = true) := by
  intro p h t e
  obtain ⟨hj, hnp⟩ := trimDotSlash_spec p
  obtain ⟨hk, hnr⟩ := trimEndSlashes_spec (trimDotSlash p)
  refine ⟨hj, hnp, hk, hnr, ?_, ?_, ?_⟩
  · exact fun hnorm => apply_entry_skip h t e hnorm
  · intro hnorm het
    rw [apply_entry_dir h t e (by rw [hnorm]; simp) (by rw [hnorm]; decide) het, hnorm]
    rfl
  · intro hnorm het
    rw [apply_entry_regular h t e (by rw [hnorm]; simp) (by rw [hnorm]; decide) het, hnorm]
    have h2 : find (t.put_file (['.'] : Key) e.mode e.uid e.gid false none h) [(['.'] : Key)]
        = some (mkFileNode e.mode e.uid e.gid false none h) :=
      find_put_file t (['.'] : Key) e.mode e.uid e.gid false none h
    rw [h2]
    rfl

/-- Witness for C4's amended theorem: an entry whose path normalizes to the
empty string ("./") is skipped. -/
theorem normalize_entry_path_respec_witness :
    apply_entry none root0 ⟨"./".data, .regular, 0, 0, 0, none⟩ = root0 :=
  (normalize_entry_path_respec ("./".data) none root0
    ⟨"./".data, .regular, 0, 0, 0, none⟩).2.2.2.2.1 (by decide)

end Contree

namespace Contree

theorem keyLt_irrefl : ∀ k : Key, keyLt k k = false
  | [] => rfl
  | a :: as => by simp [keyLt, lt_irrefl, keyLt_irrefl as]

theorem keyLt_trans : ∀ a b c : Key, keyLt a b = true → keyLt b c = true → keyLt a c = true
  | [], b, c, hab, hbc => by
    cases c with
    | nil =>
      cases b with
      | nil => simp [keyLt] at hab
      | cons b1 bs => simp [keyLt] at hbc
    | cons c1 cs => rfl
  | a1 :: as, b, c, hab, hbc => by
    cases b with
    | nil => simp [keyLt] at hab
    | cons b1 bs =>
      cases c with
      | nil => simp [keyLt] at hbc
      | cons c1 cs =>
        simp only [keyLt] at hab hbc ⊢
        by_cases h1 : a1 < b1
        · by_cases h2 : b1 < c1
          · simp [lt_trans h1 h2]
          · by_cases h3 : c1 < b1
            · simp [h2, h3] at hbc
            · have hbc1 : b1 = c1 := le_antisymm (not_lt.mp h3) (not_lt.mp h2)
              subst hbc1
              simp [h1]
        · by_cases h1b : b1 < a1
          · simp [h1, h1b] at hab
          · have hab1 : a1 = b1 := le_antisymm (not_lt.mp h1b) (not_lt.mp h1)
            subst hab1
            rw [if_neg (lt_irrefl a1), if_neg (lt_irrefl a1)] at hab
            by_cases h2 : a1 < c1
            · simp [h2]
            · by_cases h3 : c1 < a1
              · simp [h2, h3] at hbc
              · have hbc1 : a1 = c1 := le_antisymm (not_lt.mp h3) (not_lt.mp h2)
                subst hbc1
                rw [if_neg (lt_irrefl a1), if_neg (lt_irrefl a1)] at hbc ⊢
                exact keyLt_trans as bs cs hab hbc

theorem keyLt_total : ∀ a b : Key, keyLt a b = false → keyLt b a = false → a = b
  | [], [], _, _ => rfl
  | [], b1 :: bs, hab, _ => by simp [keyLt] at hab
  | a1 :: as, [], _, hba => by simp [keyLt] at hba
  | a1 :: as, b1 :: bs, hab, hba => by
    simp only [keyLt] at hab hba
    by_cases h1 : a1 < b1
    · simp [h1] at hab
    · by_cases h2 : b1 < a1
      · simp [h1, h2] at hab hba
      · have he : a1 = b1 := le_antisymm (not_lt.mp h2) (not_lt.mp h1)
        subst he
        rw [if_neg (lt_irrefl a1), if_neg (lt_irrefl a1)] at hab
        rw [if_neg (lt_irrefl a1), if_neg (lt_irrefl a1)] at hba
        rw [keyLt_total as bs hab hba]

/-- All keys of the list are strictly greater than `k`. -/
def keyGtAll (k : Key) : Children → Bool
  | .nil => true
  | .cons k2 _ rest => keyLt k k2 && keyGtAll k rest

mutual
/-- The children map is canonical: keys strictly sorted, recursively. -/
def WFn : Node → Bool
  | .mk _ cs => WFc cs
def WFc : Children → Bool
  | .nil => true
  | .cons k n rest => WFn n && keyGtAll k rest && WFc rest
end

theorem WFc_cons_parts {k : Key} {n : Node} {rest : Children}
    (hw : WFc (Children.cons k n rest) = true) :
    WFn n = true ∧ keyGtAll k rest = true ∧ WFc rest = true := by
  have hw2 := hw
  simp only [WFc, Bool.and_eq_true] at hw2
  exact ⟨hw2.1.1, hw2.1.2, hw2.2⟩

theorem keyGtAll_lookup_lt : ∀ (cs : Children) (j k : Key) (c : Node),
    keyGtAll j cs = true → lookupChild cs k = some c → keyLt j k = true
  | .nil, j, k, c, _, hl => by simp [lookupChild] at hl
  | .cons k2 n rest, j, k, c, hg, hl => by
    simp only [keyGtAll, Bool.and_eq_true] at hg
    by_cases hk : k = k2
    · subst hk
      exact hg.1
    · simp only [lookupChild, if_neg hk] at hl
      exact keyGtAll_lookup_lt rest j k c hg.2 hl

theorem keyGtAll_lookup_none (cs : Children) (j : Key) (hg : keyGtAll j cs = true) :
    lookupChild cs j = none := by
  cases hl : lookupChild cs j with
  | none => rfl
  | some c =>
    have := keyGtAll_lookup_lt cs j j c hg hl
    rw [keyLt_irrefl] at this
    exact Bool.noConfusion this

theorem keyGtAll_mono : ∀ (cs : Children) (i j : Key),
    keyGtAll j cs = true → keyLt i j = true → keyGtAll i cs = true
  | .nil, _, _, _, _ => rfl
  | .cons k2 n rest, i, j, hg, hij => by
    simp only [keyGtAll, Bool.and_eq_true] at hg ⊢
    exact ⟨keyLt_trans i j k2 hij hg.1, keyGtAll_mono rest i j hg.2 hij⟩

theorem keyGtAll_insert : ∀ (cs : Children) (j k : Key) (v : Node),
    keyGtAll j cs = true → keyLt j k = true → keyGtAll j (insertChild k v cs) = true
  | .nil, j, k, v, _, hjk => by simp [insertChild, keyGtAll, hjk]
  | .cons k2 n rest, j, k, v, hg, hjk => by
    simp only [keyGtAll, Bool.and_eq_true] at hg
    by_cases hlt : keyLt k k2
    · simp [insertChild, hlt, keyGtAll, hjk, hg.1, hg.2, Bool.and_eq_true]
    · by_cases heq : k = k2
      · subst heq
        simp [insertChild, hlt, keyGtAll, hjk, hg.2, Bool.and_eq_true]
      · simp only [insertChild, if_neg hlt, if_neg heq]
        simp only [keyGtAll, Bool.and_eq_true]
        exact ⟨hg.1, keyGtAll_insert rest j k v hg.2 hjk⟩

theorem keyGtAll_erase : ∀ (cs : Children) (j k : Key),
    keyGtAll j cs = true → keyGtAll j (eraseChild k cs) = true
  | .nil, _, _, _ => rfl
  | .cons k2 n rest, j, k, hg => by
    simp only [keyGtAll, Bool.and_eq_true] at hg
    by_cases hk : k = k2
    · simp only [eraseChild, if_pos hk]
      exact keyGtAll_erase rest j k hg.2
    · simp only [eraseChild, if_neg hk, keyGtAll, Bool.and_eq_true]
      exact ⟨hg.1, keyGtAll_erase rest j k hg.2⟩

theorem lookup_WF : ∀ (cs : Children) (k : Key) (c : Node),
    WFc cs = true → lookupChild cs k = some c → WFn c = true
  | .nil, k, c, _, hl => by simp [lookupChild] at hl
  | .cons k2 n rest, k, c, hw, hl => by
    obtain ⟨hn, _, hrest⟩ := WFc_cons_parts hw
    by_cases hk : k = k2
    · subst hk
      simp only [lookupChild, if_pos rfl] at hl
      injection hl with hl2
      rw [← hl2]
      exact hn
    · simp only [lookupChild, if_neg hk] at hl
      exact lookup_WF rest k c hrest hl

theorem insert_WF : ∀ (cs : Children) (k : Key) (v : Node),
    WFc cs = true → WFn v = true → WFc (insertChild k v cs) = true
  | .nil, k, v, _, hv => by
    show (WFn v && keyGtAll k Children.nil && WFc Children.nil) = true
    rw [hv]
    rfl
  | .cons k2 n rest, k, v, hw, hv => by
    obtain ⟨hn, hg, hrest⟩ := WFc_cons_parts hw
    by_cases hlt : keyLt k k2 = true
    · rw [show insertChild k v (Children.cons k2 n rest)
          = Children.cons k v (Children.cons k2 n rest) from by simp [insertChild, hlt]]
      show (WFn v && keyGtAll k (Children.cons k2 n rest) && WFc (Children.cons k2 n rest)) = true
      rw [hv, show keyGtAll k (Children.cons k2 n rest)
          = (keyLt k k2 && keyGtAll k rest) from rfl, hlt, keyGtAll_mono rest k k2 hg hlt, hw]
      rfl
    · by_cases heq : k = k2
      · subst heq
        rw [show insertChild k v (Children.cons k n rest)
            = Children.cons k v rest from by simp [insertChild, hlt]]
        show (WFn v && keyGtAll k rest && WFc rest) = true
        rw [hv, hg, hrest]
        rfl
      · have hk2k : keyLt k2 k = true := by
          cases hx : keyLt k2 k with
          | true => rfl
          | false =>
            have hzz : keyLt k k2 = false := by
              cases hy : keyLt k k2 with
              | true => exact absurd hy hlt
              | false => rfl
            exact absurd (keyLt_total k k2 hzz hx) heq
        rw [show insertChild k v (Children.cons k2 n rest)
            = Children.cons k2 n (insertChild k v rest) from by simp [insertChild, hlt, heq]]
        show (WFn n && keyGtAll k2 (insertChild k v rest) && WFc (insertChild k v rest)) = true
        rw [hn, keyGtAll_insert rest k2 k v hg hk2k, insert_WF rest k v hrest hv]
        rfl

theorem erase_WF : ∀ (cs : Children) (k : Key),
    WFc cs = true → WFc (eraseChild k cs) = true
  | .nil, _, _ => rfl
  | .cons k2 n rest, k, hw => by
    obtain ⟨hn, hg, hrest⟩ := WFc_cons_parts hw
    by_cases hk : k = k2
    · simp only [eraseChild, if_pos hk]
      exact erase_WF rest k hrest
    · simp only [eraseChild, if_neg hk, WFc, Bool.and_eq_true]
      exact ⟨⟨hn, keyGtAll_erase rest k2 k hg⟩, erase_WF rest k hrest⟩

end Contree

namespace Contree

theorem bool_eq_false {b : Bool} (hb : ¬ b = true) : b = false := by
  cases b
  · rfl
  · exact absurd rfl hb

theorem WFn_mk (md : NodeMetadata) (cs : Children) : WFn (Node.mk md cs) = WFc cs := rfl

theorem WFn_restamp (h : Option Key) (c : Node) : WFn (restampNode h c) = WFn c := by
  cases c
  rfl

theorem ensureParts_WF : ∀ (ps : List Key) (m u g : Nat) (h : Option Key) (t : Node),
    WFn t = true → WFn (ensureParts m u g h ps t) = true
  | [], _, _, _, _, _, hw => hw
  | p :: rest, m, u, g, h, t, hw => by
    obtain ⟨md, cs⟩ := t
    show WFn (Node.mk md (insertChild p (ensureParts m u g h rest
        (restampNode h ((lookupChild cs p).getD (new_dir m u g)))) cs)) = true
    rw [WFn_mk]
    apply insert_WF
    · exact hw
    · apply ensureParts_WF
      rw [WFn_restamp]
      cases hc : lookupChild cs p with
      | none => rfl
      | some c0 => exact lookup_WF cs p c0 hw hc

theorem navPutFile_WF : ∀ (ss : List Key) (fnode : Node) (b : Key) (t : Node),
    WFn fnode = true → WFn t = true → WFn (navPutFile fnode b ss t) = true
  | [], fnode, b, t, hf, hw => by
    obtain ⟨md, cs⟩ := t
    show WFn (Node.mk md (insertChild b fnode cs)) = true
    rw [WFn_mk]
    exact insert_WF cs b fnode hw hf
  | p :: rest, fnode, b, t, hf, hw => by
    obtain ⟨md, cs⟩ := t
    rw [navPutFile_cons, WFn_mk]
    apply insert_WF
    · exact hw
    · apply navPutFile_WF rest fnode b _ hf
      cases hc : lookupChild cs p with
      | none => rfl
      | some c0 => exact lookup_WF cs p c0 hw hc

theorem put_file_WF (t : Node) (path : Key) (m u g : Nat) (sym : Bool) (lt2 : Option Key)
    (h : Option Key) (hw : WFn t = true) :
    WFn (t.put_file path m u g sym lt2 h) = true := by
  apply navPutFile_WF
  · rfl
  · exact ensureParts_WF _ _ _ _ h t hw

theorem removeParts_WF : ∀ (ss : List Key) (b : Key) (t : Node),
    WFn t = true → WFn (removeParts ss b t) = true
  | [], b, t, hw => by
    obtain ⟨md, cs⟩ := t
    show WFn (Node.mk md (eraseChild b cs)) = true
    rw [WFn_mk]
    exact erase_WF cs b hw
  | p :: rest, b, t, hw => by
    obtain ⟨md, cs⟩ := t
    cases hc : lookupChild cs p with
    | none =>
      rw [removeParts_cons_none p rest b md cs hc]
      exact hw
    | some c =>
      rw [removeParts_cons_some p rest b md cs c hc, WFn_mk]
      exact insert_WF cs p _ hw (removeParts_WF rest b c (lookup_WF cs p c hw hc))

theorem markOpaqueParts_WF : ∀ (ps : List Key) (t : Node),
    WFn t = true → WFn (markOpaqueParts ps t) = true
  | [], t, _ => by
    obtain ⟨md, cs⟩ := t
    rfl
  | p :: rest, t, hw => by
    obtain ⟨md, cs⟩ := t
    cases hc : lookupChild cs p with
    | none =>
      rw [markOpaqueParts_cons_none p rest md cs hc]
      exact hw
    | some c =>
      rw [markOpaqueParts_cons_some p rest md cs c hc, WFn_mk]
      exact insert_WF cs p _ hw (markOpaqueParts_WF rest c (lookup_WF cs p c hw hc))

theorem setHardlinkParts_WF : ∀ (ss : List Key) (tgt b : Key) (t t2 : Node),
    WFn t = true → setHardlinkParts tgt ss b t = some t2 → WFn t2 = true
  | [], tgt, b, t, t2, hw, hs => by
    obtain ⟨md, cs⟩ := t
    rw [setHardlinkParts_nil_eq] at hs
    cases hc : lookupChild cs b with
    | none =>
      rw [hc] at hs
      exact absurd hs (by simp)
    | some c =>
      obtain ⟨bmd, bcs⟩ := c
      rw [hc] at hs
      have hs2 : some (Node.mk md (insertChild b
          (Node.mk { bmd with hardlink_target := some tgt } bcs) cs)) = some t2 := hs
      injection hs2 with hs3
      rw [← hs3, WFn_mk]
      apply insert_WF cs b _ hw
      exact lookup_WF cs b (Node.mk bmd bcs) hw hc
  | p :: rest, tgt, b, t, t2, hw, hs => by
    obtain ⟨md, cs⟩ := t
    rw [setHardlinkParts_cons_eq] at hs
    cases hc : lookupChild cs p with
    | none =>
      rw [hc] at hs
      exact absurd hs (by simp)
    | some c =>
      rw [hc] at hs
      have hs' : (match setHardlinkParts tgt rest b c with
          | none => none
          | some c2 => some (Node.mk md (insertChild p c2 cs))) = some t2 := hs
      cases hs2 : setHardlinkParts tgt rest b c with
      | none =>
        rw [hs2] at hs'
        exact absurd hs' (by simp)
      | some c2 =>
        rw [hs2] at hs'
        have hs3 : some (Node.mk md (insertChild p c2 cs)) = some t2 := hs'
        injection hs3 with hs4
        rw [← hs4, WFn_mk]
        exact insert_WF cs p c2 hw
          (setHardlinkParts_WF rest tgt b c c2 (lookup_WF cs p c hw hc) hs2)

theorem apply_entry_WF (h : Option Key) (t : Node) (e : TarEntry) (hw : WFn t = true) :
    WFn (apply_entry h t e) = true := by
  by_cases hne : normalizeEntryPath e.path = []
  · rw [apply_entry_skip h t e hne]
    exact hw
  · by_cases hwh : is_whiteout (normalizeEntryPath e.path) = true
    · by_cases hop : is_opaque (normalizeEntryPath e.path) = true
      · rw [apply_entry_opq_mark h t e hop]
        exact markOpaqueParts_WF _ t hw
      · rw [apply_entry_whiteout h t e hwh (bool_eq_false hop)]
        exact removeParts_WF _ _ t hw
    · have hw2 := bool_eq_false hwh
      cases het : e.etype with
      | directory =>
        rw [apply_entry_dir h t e hne hw2 het]
        exact ensureParts_WF _ e.mode e.uid e.gid h t hw
      | regular =>
        rw [apply_entry_regular h t e hne hw2 het]
        exact put_file_WF t _ e.mode e.uid e.gid false none h hw
      | symlink =>
        rw [apply_entry_symlink h t e hne hw2 het]
        exact put_file_WF t _ e.mode e.uid e.gid true e.link_name h hw
      | other =>
        rw [apply_entry_other h t e hne hw2 het]
        exact hw
      | link =>
        rw [apply_entry_link h t e hne hw2 het]
        cases e.link_name with
        | none => exact put_file_WF t _ e.mode e.uid e.gid false none h hw
        | some tgt =>
          have hw1 := put_file_WF t (normalizeEntryPath e.path) e.mode e.uid e.gid false none h hw
          show WFn (((t.put_file (normalizeEntryPath e.path) e.mode e.uid e.gid false none
              h).set_hardlink_target (normalizeEntryPath e.path) tgt).getD
              (t.put_file (normalizeEntryPath e.path) e.mode e.uid e.gid false none h)) = true
          cases hs : (t.put_file (normalizeEntryPath e.path) e.mode e.uid e.gid false none
              h).set_hardlink_target (normalizeEntryPath e.path) tgt with
          | none => exact hw1
          | some t2 => exact setHardlinkParts_WF _ tgt _ _ t2 hw1 hs

theorem process_layer_WF (h : Option Key) (L : List TarEntry) :
    ∀ t : Node, WFn t = true → WFn (process_layer_entries h t L) = true := by
  induction L with
  | nil => exact fun _ hw => hw
  | cons e L2 ih => exact fun t hw => ih (apply_entry h t e) (apply_entry_WF h t e hw)

theorem root0_WF : WFn root0 = true := rfl

end Contree

namespace Contree

def obsC (cs : Children) (k : Key) (qs : List Key) : Option NodeMetadata :=
  match lookupChild cs k with
  | some c => obs c qs
  | none => none

theorem obs_eq_obsC (md : NodeMetadata) (cs : Children) (k : Key) (qs : List Key) :
    obs (Node.mk md cs) (k :: qs) = obsC cs k qs := by
  unfold obsC
  cases hc : lookupChild cs k with
  | none => rw [obs_cons_none md qs hc]
  | some c => rw [obs_cons_some md qs hc]

theorem obsC_cons_self (k : Key) (n : Node) (r : Children) (qs : List Key) :
    obsC (Children.cons k n r) k qs = obs n qs := by
  unfold obsC
  simp [lookupChild]

theorem obsC_cons_ne (k k1 : Key) (n : Node) (r : Children) (qs : List Key) (hk : ¬ k = k1) :
    obsC (Children.cons k1 n r) k qs = obsC r k qs := by
  unfold obsC
  simp [lookupChild, hk]

theorem obsC_nil (k : Key) (qs : List Key) : obsC Children.nil k qs = none := rfl

mutual
/-- Extensionality: two canonical (sorted) trees observing the same metadata
at every path are equal. -/
theorem extN : ∀ (t1 t2 : Node), WFn t1 = true → WFn t2 = true →
    (∀ q : List Key, obs t1 q = obs t2 q) → t1 = t2
  | .mk m1 c1, .mk m2 c2, h1, h2, hobs => by
    have hm : m1 = m2 := by
      have hx := hobs []
      rw [obs_nil_path, obs_nil_path] at hx
      exact Option.some.inj hx
    have hc : c1 = c2 := extC c1 c2 h1 h2 (fun k qs => by
      have hx := hobs (k :: qs)
      rw [obs_eq_obsC, obs_eq_obsC] at hx
      exact hx)
    rw [hm, hc]

theorem extC : ∀ (c1 c2 : Children), WFc c1 = true → WFc c2 = true →
    (∀ (k : Key) (qs : List Key), obsC c1 k qs = obsC c2 k qs) → c1 = c2
  | .nil, .nil, _, _, _ => rfl
  | .nil, .cons k2 n2 r2, _, _, hobs => by
    exfalso
    have hx := hobs k2 []
    rw [obsC_nil, obsC_cons_self, obs_nil_path] at hx
    exact Option.noConfusion hx
  | .cons k1 n1 r1, .nil, _, _, hobs => by
    exfalso
    have hx := hobs k1 []
    rw [obsC_nil, obsC_cons_self, obs_nil_path] at hx
    exact Option.noConfusion hx
  | .cons k1 n1 r1, .cons k2 n2 r2, h1, h2, hobs => by
    obtain ⟨hn1, hg1, hr1⟩ := WFc_cons_parts h1
    obtain ⟨hn2, hg2, hr2⟩ := WFc_cons_parts h2
    have hk : k1 = k2 := by
      by_contra hne
      have hx1 := hobs k1 []
      rw [obsC_cons_self, obs_nil_path, obsC_cons_ne k1 k2 n2 r2 [] hne] at hx1
      have hlt21 : keyLt k2 k1 = true := by
        unfold obsC at hx1
        cases hc : lookupChild r2 k1 with
        | none =>
          rw [hc] at hx1
          exact absurd hx1 (by simp)
        | some c => exact keyGtAll_lookup_lt r2 k2 k1 c hg2 hc
      have hne2 : ¬ k2 = k1 := fun hh => hne hh.symm
      have hx2 := hobs k2 []
      rw [obsC_cons_ne k2 k1 n1 r1 [] hne2, obsC_cons_self, obs_nil_path] at hx2
      have hlt12 : keyLt k1 k2 = true := by
        unfold obsC at hx2
        cases hc : lookupChild r1 k2 with
        | none =>
          rw [hc] at hx2
          exact absurd hx2 (by simp)
        | some c => exact keyGtAll_lookup_lt r1 k1 k2 c hg1 hc
      have hcontra := keyLt_trans k1 k2 k1 hlt12 hlt21
      rw [keyLt_irrefl] at hcontra
      exact Bool.noConfusion hcontra
    subst hk
    have hn : n1 = n2 := extN n1 n2 hn1 hn2 (fun qs => by
      have hx := hobs k1 qs
      rw [obsC_cons_self, obsC_cons_self] at hx
      exact hx)
    have hr : r1 = r2 := extC r1 r2 hr1 hr2 (fun k qs => by
      by_cases hkk : k = k1
      · subst hkk
        unfold obsC
        rw [keyGtAll_lookup_none r1 k hg1, keyGtAll_lookup_none r2 k hg2]
      · have hx := hobs k qs
        rw [obsC_cons_ne k k1 n1 r1 qs hkk, obsC_cons_ne k k1 n2 r2 qs hkk] at hx
        exact hx)
    rw [hn, hr]
end

/-- Sequential composition of per-path actions (the later action first). -/
def compPP (h : Option Key) (g f : PP) : PP :=
  match f with
  | .pid => g
  | .pconst v => .pconst (evalPP h g v)
  | .pstamp f0 =>
    match g with
    | .pid => .pstamp f0
    | .pconst w => .pconst w
    | .pstamp _ => .pstamp f0

theorem comp_evalPP (h : Option Key) (g f : PP) (x : Option NodeMetadata) :
    evalPP h (compPP h g f) x = evalPP h g (evalPP h f x) := by
  cases f with
  | pid => rfl
  | pconst v => rfl
  | pstamp f0 =>
    cases g with
    | pid => rfl
    | pconst w => rfl
    | pstamp g0 => rfl

/-- Every per-path action is idempotent (restamping with the same layer tag
twice equals restamping once). -/
theorem evalPP_idem (h : Option Key) (P : PP) (x : Option NodeMetadata) :
    evalPP h P (evalPP h P x) = evalPP h P x := by
  cases P <;> rfl

/-- The composite per-path action of one whole layer. -/
def layerPP (h : Option Key) (L : List TarEntry) (q : List Key) : PP :=
  L.foldl (fun a e => compPP h (entryPP h e q) a) .pid

theorem layer_foldPP (h : Option Key) (L : List TarEntry) (q : List Key) :
    ∀ (acc : PP) (x : Option NodeMetadata),
      L.foldl (fun y e => evalPP h (entryPP h e q) y) (evalPP h acc x)
        = evalPP h (L.foldl (fun a e => compPP h (entryPP h e q) a) acc) x := by
  induction L with
  | nil =>
    intro acc x
    rfl
  | cons e L2 ih =>
    intro acc x
    rw [List.foldl_cons, List.foldl_cons, ← comp_evalPP]
    exact ih (compPP h (entryPP h e q) acc) x

theorem obs_process_layerPP (h : Option Key) (L : List TarEntry) (t : Node) (q : List Key) :
    obs (process_layer_entries h t L) q = evalPP h (layerPP h L q) (obs t q) := by
  rw [obs_process_layer]
  have hx := layer_foldPP h L q .pid (obs t q)
  rw [show evalPP h PP.pid (obs t q) = obs t q from rfl] at hx
  exact hx

/-- C5: replaying the identical layer twice (manifest order [L, L], same
attribution tag) from the empty root yields the same tree as applying it
once.  Per path, a whole layer acts as a single idempotent action (identity,
constant, or create-or-restamp), so the second replay changes nothing; by
canonicity of the children maps the trees are equal. -/
theorem replay_layer_idempotent :
    ∀ (h : Option Key) (L : List TarEntry),
      run_layers [(h, L), (h, L)] root0 = run_layers [(h, L)] root0 := by
  intro h L
  apply extN
  · exact process_layer_WF h L _ (process_layer_WF h L root0 root0_WF)
  · exact process_layer_WF h L root0 root0_WF
  · intro q
    show obs (process_layer_entries h (process_layer_entries h root0 L) L) q
        = obs (process_layer_entries h root0 L) q
    rw [obs_process_layerPP h L (process_layer_entries h root0 L) q,
      obs_process_layerPP h L root0 q, evalPP_idem]

end Contree
